import Mathlib

/-!
Verification of the tree layout engine of src/components/MindMapView.tsx.

The engine is a pure function from a tree of topics (src/types.ts,
MindMapNode) to a layout result: a flat breadth-first list of placed
nodes together with the total width and height of the diagram.

All coordinates are modelled with rationals: every quantity the source
manipulates is an integer or an integer divided by 2, so JavaScript
float arithmetic is exact on them and agrees with rational arithmetic.
-/

/-! ### Configuration constants (MindMapView.tsx lines 6-9) -/

def nodeHeight : ℚ := 50
def verticalGap : ℚ := 50
def horizontalGap : ℚ := 40
def padding : ℚ := 40

/-! ### Input data model (src/types.ts)

MindMapNode has a topic string and an optional children array
(children?: MindMapNode[]); an absent array is modelled by none. -/

inductive MindMapNode : Type where
  | mk (topic : String) (children : Option (List MindMapNode)) : MindMapNode

def MindMapNode.topic : MindMapNode → String
  | .mk t _ => t

def MindMapNode.children : MindMapNode → Option (List MindMapNode)
  | .mk _ c => c

/-! ### LayoutNode (MindMapView.tsx lines 12-22)

The interface carries id, the source node (represented here by its
topic), relative x, absolute y, final absolute x, subtree width and
height, plus the children list.  Parent back-references are not stored:
parenthood is the tree structure itself. -/

inductive LayoutNode : Type where
  | mk (id : Nat) (topic : String) (x y finalX width height : ℚ)
      (children : List LayoutNode) : LayoutNode

def LayoutNode.id : LayoutNode → Nat
  | .mk i _ _ _ _ _ _ _ => i

def LayoutNode.topic : LayoutNode → String
  | .mk _ t _ _ _ _ _ _ => t

def LayoutNode.x : LayoutNode → ℚ
  | .mk _ _ x _ _ _ _ _ => x

def LayoutNode.y : LayoutNode → ℚ
  | .mk _ _ _ y _ _ _ _ => y

def LayoutNode.finalX : LayoutNode → ℚ
  | .mk _ _ _ _ fx _ _ _ => fx

def LayoutNode.width : LayoutNode → ℚ
  | .mk _ _ _ _ _ w _ _ => w

def LayoutNode.height : LayoutNode → ℚ
  | .mk _ _ _ _ _ _ h _ => h

def LayoutNode.children : LayoutNode → List LayoutNode
  | .mk _ _ _ _ _ _ _ cs => cs

@[simp] theorem id_mk (i : Nat) (t : String) (x y fx w h : ℚ) (cs : List LayoutNode) :
    (LayoutNode.mk i t x y fx w h cs).id = i := rfl

@[simp] theorem topic_mk (i : Nat) (t : String) (x y fx w h : ℚ) (cs : List LayoutNode) :
    (LayoutNode.mk i t x y fx w h cs).topic = t := rfl

@[simp] theorem x_mk (i : Nat) (t : String) (x y fx w h : ℚ) (cs : List LayoutNode) :
    (LayoutNode.mk i t x y fx w h cs).x = x := rfl

@[simp] theorem y_mk (i : Nat) (t : String) (x y fx w h : ℚ) (cs : List LayoutNode) :
    (LayoutNode.mk i t x y fx w h cs).y = y := rfl

@[simp] theorem finalX_mk (i : Nat) (t : String) (x y fx w h : ℚ) (cs : List LayoutNode) :
    (LayoutNode.mk i t x y fx w h cs).finalX = fx := rfl

@[simp] theorem width_mk (i : Nat) (t : String) (x y fx w h : ℚ) (cs : List LayoutNode) :
    (LayoutNode.mk i t x y fx w h cs).width = w := rfl

@[simp] theorem height_mk (i : Nat) (t : String) (x y fx w h : ℚ) (cs : List LayoutNode) :
    (LayoutNode.mk i t x y fx w h cs).height = h := rfl

@[simp] theorem children_mk (i : Nat) (t : String) (x y fx w h : ℚ) (cs : List LayoutNode) :
    (LayoutNode.mk i t x y fx w h cs).children = cs := rfl

/-! ### Dynamic node width (MindMapView.tsx lines 30-38) -/

def MIN_NODE_WIDTH : ℚ := 80
def MAX_NODE_WIDTH : ℚ := 220
def CHAR_WIDTH_MULTIPLIER : ℚ := 8
def HORIZONTAL_PADDING : ℚ := 20

def calculatedWidth (topic : String) : ℚ :=
  (topic.length : ℚ) * CHAR_WIDTH_MULTIPLIER + HORIZONTAL_PADDING

def dynamicNodeWidth (topic : String) : ℚ :=
  max MIN_NODE_WIDTH (min MAX_NODE_WIDTH (calculatedWidth topic))

/-- The source reads node.children || [] (line 52). -/
def childrenOrEmpty : Option (List MindMapNode) → List MindMapNode
  | none => []
  | some cs => cs

theorem sizeOf_childrenOrEmpty_lt (t : String) (c : Option (List MindMapNode)) :
    sizeOf (childrenOrEmpty c) < sizeOf (MindMapNode.mk t c) := by
  cases c with
  | none => simp [childrenOrEmpty]
  | some cs => simp [childrenOrEmpty]; omega

/-! ### buildLayoutTree (MindMapView.tsx lines 29-54)

The id counter is threaded explicitly instead of being a mutable
closure variable; ids are assigned in pre-order exactly as idCounter++
does in the source. -/

mutual

def buildLayoutTree : MindMapNode → Nat → Nat → LayoutNode × Nat
  | .mk topic children, ctr, depth =>
    (LayoutNode.mk ctr topic 0 ((depth : ℚ) * (nodeHeight + verticalGap)) 0
        (dynamicNodeWidth topic) nodeHeight
        (buildLayoutList (childrenOrEmpty children) (ctr + 1) (depth + 1)).1,
      (buildLayoutList (childrenOrEmpty children) (ctr + 1) (depth + 1)).2)
  termination_by n => sizeOf n
  decreasing_by
    all_goals exact sizeOf_childrenOrEmpty_lt _ _

def buildLayoutList : List MindMapNode → Nat → Nat → List LayoutNode × Nat
  | [], ctr, _ => ([], ctr)
  | n :: ns, ctr, depth =>
    ((buildLayoutTree n ctr depth).1 ::
        (buildLayoutList ns (buildLayoutTree n ctr depth).2 depth).1,
      (buildLayoutList ns (buildLayoutTree n ctr depth).2 depth).2)
  termination_by ns => sizeOf ns
  decreasing_by
    all_goals simp <;> omega

end

/-! ### firstWalk (MindMapView.tsx lines 77-87)

Post-order pass: children are laid out first, then placed side by side
(placeChildren mirrors the for loop over currentX), and the node's
width becomes max(own width, total children width). -/

/-- node.children.reduce((acc, child) => acc + child.width, 0) (line 80). -/
def sumChildWidths (cs : List LayoutNode) : ℚ :=
  cs.foldl (fun acc child => acc + child.width) 0

/-- The for loop of lines 82-85: child.x = currentX + child.width / 2;
currentX += child.width + horizontalGap. -/
def placeChildren : List LayoutNode → ℚ → List LayoutNode
  | [], _ => []
  | .mk i t _ y fx w h cs :: rest, currentX =>
    LayoutNode.mk i t (currentX + w / 2) y fx w h cs ::
      placeChildren rest (currentX + w + horizontalGap)

/-- line 80: sum of (already recursively walked) children widths plus
(n-1) gaps. -/
def totalChildrenWidthOf (cs : List LayoutNode) : ℚ :=
  sumChildWidths cs + ((cs.length : ℚ) - 1) * horizontalGap

mutual

def firstWalk : LayoutNode → LayoutNode
  | .mk i t x y fx w h [] => .mk i t x y fx w h []
  | .mk i t x y fx w h (c :: cs) =>
    LayoutNode.mk i t x y fx
      (max w (totalChildrenWidthOf (firstWalkList (c :: cs)))) h
      (placeChildren (firstWalkList (c :: cs))
        (-(totalChildrenWidthOf (firstWalkList (c :: cs))) / 2))
  termination_by n => sizeOf n
  decreasing_by
    all_goals simp <;> omega

def firstWalkList : List LayoutNode → List LayoutNode
  | [] => []
  | c :: cs => firstWalk c :: firstWalkList cs
  termination_by ns => sizeOf ns
  decreasing_by
    all_goals simp <;> omega

end

/-! ### secondWalk (MindMapView.tsx lines 89-96)

Pre-order pass resolving finalX = parentX + x and accumulating the
bounds; the mutable bounds record is threaded explicitly. -/

structure Bounds where
  minX : ℚ
  maxX : ℚ
  maxY : ℚ

/-- Lines 91-93: the three bounds updates performed at one node. -/
def stepBounds (finalX width y : ℚ) (b : Bounds) : Bounds :=
  ⟨min b.minX (finalX - width / 2), max b.maxX (finalX + width / 2),
    max b.maxY y⟩

mutual

def secondWalk : LayoutNode → ℚ → Bounds → LayoutNode × Bounds
  | .mk i t x y fx w h cs, parentX, b =>
    (LayoutNode.mk i t x y (parentX + x) w h
        (secondWalkList cs (parentX + x) (stepBounds (parentX + x) w y b)).1,
      (secondWalkList cs (parentX + x) (stepBounds (parentX + x) w y b)).2)
  termination_by n => sizeOf n
  decreasing_by
    all_goals simp <;> omega

def secondWalkList : List LayoutNode → ℚ → Bounds → List LayoutNode × Bounds
  | [], _, b => ([], b)
  | c :: cs, parentX, b =>
    ((secondWalk c parentX b).1 ::
        (secondWalkList cs parentX (secondWalk c parentX b).2).1,
      (secondWalkList cs parentX (secondWalk c parentX b).2).2)
  termination_by ns => sizeOf ns
  decreasing_by
    all_goals simp <;> omega

end

/-! ### Flattening and normalization (MindMapView.tsx lines 61-74)

The while loop dequeues a node, shifts finalX by -minX + padding and y
by +padding, records the node, and enqueues its children.  A recorded
node is modelled by a PlacedNode; parenthood is kept as the list of
children ids (the source keeps live children pointers). -/

structure PlacedNode where
  id : Nat
  topic : String
  finalX : ℚ
  y : ℚ
  width : ℚ
  height : ℚ
  childIds : List Nat

theorem one_le_sizeOf_layoutList (l : List LayoutNode) : 1 ≤ sizeOf l := by
  cases l with
  | nil => simp
  | cons a l => simp only [List.cons.sizeOf_spec]; omega

theorem sizeOf_layoutList_append (l₁ l₂ : List LayoutNode) :
    sizeOf (l₁ ++ l₂) = sizeOf l₁ + sizeOf l₂ - 1 := by
  induction l₁ with
  | nil =>
    have h1 := one_le_sizeOf_layoutList l₂
    simp only [List.nil_append, List.nil.sizeOf_spec]
    omega
  | cons a l ih =>
    have h1 := one_le_sizeOf_layoutList l₂
    have h2 := one_le_sizeOf_layoutList l
    simp only [List.cons_append, List.cons.sizeOf_spec, ih]
    omega

def bfsNodes : List LayoutNode → ℚ → List PlacedNode
  | [], _ => []
  | .mk i t _ y fx w h cs :: queue, minX =>
    ⟨i, t, fx - minX + padding, y + padding, w, h, cs.map LayoutNode.id⟩ ::
      bfsNodes (queue ++ cs) minX
  termination_by q => sizeOf q
  decreasing_by
    all_goals simp [sizeOf_layoutList_append] <;> omega

structure LayoutResult where
  nodes : List PlacedNode
  width : ℚ
  height : ℚ

/-- simpleTreeLayout (MindMapView.tsx lines 26-75). -/
def simpleTreeLayout (root : MindMapNode) : LayoutResult :=
  { nodes :=
      bfsNodes [(secondWalk (firstWalk (buildLayoutTree root 0 0).1) 0 ⟨0, 0, 0⟩).1]
        (secondWalk (firstWalk (buildLayoutTree root 0 0).1) 0 ⟨0, 0, 0⟩).2.minX,
    width :=
      (secondWalk (firstWalk (buildLayoutTree root 0 0).1) 0 ⟨0, 0, 0⟩).2.maxX -
        (secondWalk (firstWalk (buildLayoutTree root 0 0).1) 0 ⟨0, 0, 0⟩).2.minX +
        padding * 2,
    height :=
      (secondWalk (firstWalk (buildLayoutTree root 0 0).1) 0 ⟨0, 0, 0⟩).2.maxY +
        nodeHeight + padding * 2 }

/-! ### Derived views of the layout (used to state the properties)

These do not model new source code; they are observation functions on
the trees the passes produce. -/

/-- The tree after both walks, before normalization. -/
def resolvedTree (root : MindMapNode) : LayoutNode :=
  (secondWalk (firstWalk (buildLayoutTree root 0 0).1) 0 ⟨0, 0, 0⟩).1

/-- The bounds returned by the top-down pass. -/
def layoutBounds (root : MindMapNode) : Bounds :=
  (secondWalk (firstWalk (buildLayoutTree root 0 0).1) 0 ⟨0, 0, 0⟩).2

mutual

/-- Normalization as applied to each dequeued node by the while loop
(lines 65-66): finalX := finalX - minX + padding, y := y + padding. -/
def normalizeTree : LayoutNode → ℚ → LayoutNode
  | .mk i t x y fx w h cs, minX =>
    .mk i t x (y + padding) (fx - minX + padding) w h (normalizeList cs minX)
  termination_by n => sizeOf n
  decreasing_by
    all_goals simp <;> omega

def normalizeList : List LayoutNode → ℚ → List LayoutNode
  | [], _ => []
  | c :: cs, minX => normalizeTree c minX :: normalizeList cs minX
  termination_by l => sizeOf l
  decreasing_by
    all_goals simp <;> omega

end

/-- The fully normalized layout tree: every node carries its final
absolute coordinates exactly as in the nodes array of the result. -/
def finalTree (root : MindMapNode) : LayoutNode :=
  normalizeTree (resolvedTree root) (layoutBounds root).minX

/-- Breadth-first flattening without the normalization shift. -/
def bfsFlat : List LayoutNode → List PlacedNode
  | [] => []
  | .mk i t _ y fx w h cs :: queue =>
    ⟨i, t, fx, y, w, h, cs.map LayoutNode.id⟩ :: bfsFlat (queue ++ cs)
  termination_by q => sizeOf q
  decreasing_by
    all_goals simp [sizeOf_layoutList_append] <;> omega

mutual

/-- Pre-order list of all nodes of a layout tree. -/
def allNodes : LayoutNode → List LayoutNode
  | .mk i t x y fx w h cs => .mk i t x y fx w h cs :: allNodesList cs
  termination_by n => sizeOf n
  decreasing_by
    all_goals simp <;> omega

def allNodesList : List LayoutNode → List LayoutNode
  | [] => []
  | c :: cs => allNodes c ++ allNodesList cs
  termination_by l => sizeOf l
  decreasing_by
    all_goals simp <;> omega

end

mutual

/-- Pre-order list of all nodes paired with their depth. -/
def allNodesDepth : LayoutNode → Nat → List (LayoutNode × Nat)
  | .mk i t x y fx w h cs, d =>
    (LayoutNode.mk i t x y fx w h cs, d) :: allNodesDepthList cs (d + 1)
  termination_by n => sizeOf n
  decreasing_by
    all_goals simp <;> omega

def allNodesDepthList : List LayoutNode → Nat → List (LayoutNode × Nat)
  | [], _ => []
  | c :: cs, d => allNodesDepth c d ++ allNodesDepthList cs d
  termination_by l => sizeOf l
  decreasing_by
    all_goals simp <;> omega

end

mutual

/-- Number of nodes of an input tree. -/
def mmCount : MindMapNode → Nat
  | .mk topic children => 1 + mmCountList (childrenOrEmpty children)
  termination_by n => sizeOf n
  decreasing_by
    all_goals exact sizeOf_childrenOrEmpty_lt _ _

def mmCountList : List MindMapNode → Nat
  | [] => 0
  | n :: ns => mmCount n + mmCountList ns
  termination_by l => sizeOf l
  decreasing_by
    all_goals simp <;> omega

end

mutual

/-- Equality of input trees up to the representation of an empty
children array: an absent array (none) and an explicit empty array
(some nil) are identified, since line 52 reads node.children || []. -/
def SameSource : MindMapNode → MindMapNode → Prop
  | .mk t1 c1, .mk t2 c2 =>
    t1 = t2 ∧ SameSourceList (childrenOrEmpty c1) (childrenOrEmpty c2)
  termination_by n _ => sizeOf n
  decreasing_by
    all_goals exact sizeOf_childrenOrEmpty_lt _ _

def SameSourceList : List MindMapNode → List MindMapNode → Prop
  | [], [] => True
  | a :: l1, b :: l2 => SameSource a b ∧ SameSourceList l1 l2
  | _, _ => False
  termination_by l _ => sizeOf l
  decreasing_by
    all_goals simp <;> omega

end

/-! ### Runtime models for the error-handling claims

The TypeScript type of topic is string, but the spec claims concern
inputs that violate that type (a non-string label) or the tree shape
(a cyclic object graph).  These two models give the JavaScript runtime
semantics of the relevant source lines for such inputs. -/

/-- A JavaScript runtime value sitting in the topic field: a string as
typed, or undefined (e.g. a missing field in the service response). -/
inductive JSValue where
  | str (s : String)
  | undef

/-- Runtime semantics of the expression node.topic.length (line 37):
reading .length of undefined throws a TypeError. -/
def topicLengthJS : JSValue → Except String ℚ
  | .str s => .ok (s.length : ℚ)
  | .undef => .error "TypeError: cannot read length of undefined"

/-- Lines 37-38 under JavaScript semantics for the topic value. -/
def dynamicNodeWidthJS (topic : JSValue) : Except String ℚ :=
  match topicLengthJS topic with
  | .error e => .error e
  | .ok len => .ok (max MIN_NODE_WIDTH (min MAX_NODE_WIDTH (len * CHAR_WIDTH_MULTIPLIER + HORIZONTAL_PADDING)))

/-- An object graph: object i carries a topic and a list of references
to child objects.  Unlike MindMapNode this can contain cycles, which
is what an untrusted producer could hand to the layout call. -/
structure ObjectGraph where
  objects : List (String × List Nat)

mutual

/-- buildLayoutTree (lines 29-54) executed on an object graph, with
fuel modelling the JavaScript call stack: the code recurses into
node.children unconditionally, with no visited set and no depth bound,
so the only way a traversal of a cyclic graph ends is by exhausting
the stack.  Returns none when the fuel runs out or a reference is
dangling; ctr and depth are threaded as in buildLayoutTree. -/
def buildLayoutTreeRef (g : ObjectGraph) : Nat → Nat → Nat → Nat → Option (LayoutNode × Nat)
  | 0, _, _, _ => none
  | fuel + 1, i, ctr, depth =>
    match g.objects.get? i with
    | none => none
    | some (topic, childRefs) =>
      match buildLayoutListRef g fuel childRefs (ctr + 1) (depth + 1) with
      | none => none
      | some (cs, ctr2) =>
        some (LayoutNode.mk ctr topic 0 ((depth : ℚ) * (nodeHeight + verticalGap)) 0
          (dynamicNodeWidth topic) nodeHeight cs, ctr2)
  termination_by fuel _ _ _ => (fuel, 0)

/-- The children.map over references, threading the counter. -/
def buildLayoutListRef (g : ObjectGraph) : Nat → List Nat → Nat → Nat → Option (List LayoutNode × Nat)
  | _, [], ctr, _ => some ([], ctr)
  | fuel, i :: rest, ctr, depth =>
    match buildLayoutTreeRef g fuel i ctr depth with
    | none => none
    | some (c, ctr2) =>
      match buildLayoutListRef g fuel rest ctr2 depth with
      | none => none
      | some (cs, ctr3) => some (c :: cs, ctr3)
  termination_by fuel refs _ _ => (fuel, refs.length + 1)

end

/-- A single object whose children array contains the object itself:
the smallest cyclic input. -/
def selfLoopGraph : ObjectGraph :=
  ⟨[("A", [0])]⟩

/-- The construction diverges on graph g when started at object 0: no
amount of call-stack fuel lets it return. -/
def buildDivergesOn (g : ObjectGraph) : Prop :=
  ∀ fuel ctr depth, buildLayoutTreeRef g fuel 0 ctr depth = none

/-! ## Induction principles for the nested tree types -/

mutual

theorem layoutInd (P : LayoutNode → Prop) (Q : List LayoutNode → Prop)
    (h1 : ∀ i t x y fx w h cs, Q cs → P (.mk i t x y fx w h cs))
    (h2 : Q []) (h3 : ∀ c cs, P c → Q cs → Q (c :: cs)) :
    ∀ n, P n
  | .mk i t x y fx w h cs => h1 i t x y fx w h cs (layoutListInd P Q h1 h2 h3 cs)
  termination_by n => sizeOf n
  decreasing_by
    all_goals simp <;> omega

theorem layoutListInd (P : LayoutNode → Prop) (Q : List LayoutNode → Prop)
    (h1 : ∀ i t x y fx w h cs, Q cs → P (.mk i t x y fx w h cs))
    (h2 : Q []) (h3 : ∀ c cs, P c → Q cs → Q (c :: cs)) :
    ∀ l, Q l
  | [] => h2
  | c :: cs =>
    h3 c cs (layoutInd P Q h1 h2 h3 c) (layoutListInd P Q h1 h2 h3 cs)
  termination_by l => sizeOf l
  decreasing_by
    all_goals simp <;> omega

end

mutual

theorem mmInd (P : MindMapNode → Prop) (Q : List MindMapNode → Prop)
    (h1 : ∀ t c, Q (childrenOrEmpty c) → P (.mk t c))
    (h2 : Q []) (h3 : ∀ n ns, P n → Q ns → Q (n :: ns)) :
    ∀ n, P n
  | .mk t c => h1 t c (mmListInd P Q h1 h2 h3 (childrenOrEmpty c))
  termination_by n => sizeOf n
  decreasing_by
    all_goals exact sizeOf_childrenOrEmpty_lt _ _

theorem mmListInd (P : MindMapNode → Prop) (Q : List MindMapNode → Prop)
    (h1 : ∀ t c, Q (childrenOrEmpty c) → P (.mk t c))
    (h2 : Q []) (h3 : ∀ n ns, P n → Q ns → Q (n :: ns)) :
    ∀ l, Q l
  | [] => h2
  | n :: ns => h3 n ns (mmInd P Q h1 h2 h3 n) (mmListInd P Q h1 h2 h3 ns)
  termination_by l => sizeOf l
  decreasing_by
    all_goals simp <;> omega

end

/-! ## Basic facts about the pre-order node lists -/

theorem allNodesList_append (l₁ l₂ : List LayoutNode) :
    allNodesList (l₁ ++ l₂) = allNodesList l₁ ++ allNodesList l₂ := by
  induction l₁ with
  | nil => simp [allNodesList]
  | cons c cs ih => simp [allNodesList, ih]

theorem allNodesDepthList_append (l₁ l₂ : List LayoutNode) (d : Nat) :
    allNodesDepthList (l₁ ++ l₂) d = allNodesDepthList l₁ d ++ allNodesDepthList l₂ d := by
  induction l₁ with
  | nil => simp [allNodesDepthList]
  | cons c cs ih => simp [allNodesDepthList, ih]

theorem self_mem_allNodes (t : LayoutNode) : t ∈ allNodes t := by
  cases t
  simp [allNodes]

theorem mem_allNodesList_of_mem {c : LayoutNode} {l : List LayoutNode}
    (hc : c ∈ l) {m : LayoutNode} (hm : m ∈ allNodes c) : m ∈ allNodesList l := by
  induction l with
  | nil => cases hc
  | cons a l ih =>
    rcases List.mem_cons.1 hc with h | h
    · subst h
      simp [allNodesList]
      exact Or.inl hm
    · simp [allNodesList]
      exact Or.inr (ih h)

theorem allNodes_trans :
    ∀ t : LayoutNode, ∀ m ∈ allNodes t, ∀ m2 ∈ allNodes m, m2 ∈ allNodes t := by
  have main :=
    layoutInd (fun t => ∀ m ∈ allNodes t, ∀ m2 ∈ allNodes m, m2 ∈ allNodes t)
      (fun l => ∀ m ∈ allNodesList l, ∀ m2 ∈ allNodes m, m2 ∈ allNodesList l)
      (by
        intro i t x y fx w h cs hQ m hm m2 hm2
        simp only [allNodes, List.mem_cons] at hm ⊢
        rcases hm with rfl | hm
        · simp only [allNodes, List.mem_cons] at hm2
          exact hm2
        · exact Or.inr (hQ m hm m2 hm2))
      (by intro m hm; simp [allNodesList] at hm)
      (by
        intro c cs hP hQ m hm m2 hm2
        simp only [allNodesList, List.mem_append] at hm ⊢
        rcases hm with hm | hm
        · exact Or.inl (hP m hm m2 hm2)
        · exact Or.inr (hQ m hm m2 hm2))
  exact main

theorem child_mem_allNodes {m c : LayoutNode} (hc : c ∈ m.children) :
    c ∈ allNodes m := by
  cases m with
  | mk i t x y fx w h cs =>
    simp only [LayoutNode.children] at hc
    simp only [allNodes, List.mem_cons]
    exact Or.inr (mem_allNodesList_of_mem hc (self_mem_allNodes c))

theorem child_mem_of_mem {t m c : LayoutNode} (hm : m ∈ allNodes t)
    (hc : c ∈ m.children) : c ∈ allNodes t :=
  allNodes_trans t m hm c (child_mem_allNodes hc)

/-! ## Facts about buildLayoutTree -/

theorem dynamicNodeWidth_ge_min (s : String) :
    MIN_NODE_WIDTH ≤ dynamicNodeWidth s := le_max_left _ _

theorem dynamicNodeWidth_pos (s : String) : 0 ≤ dynamicNodeWidth s := by
  have h := dynamicNodeWidth_ge_min s
  have : (0 : ℚ) ≤ MIN_NODE_WIDTH := by norm_num [MIN_NODE_WIDTH]
  linarith

theorem build_fields :
    ∀ n : MindMapNode, ∀ ctr depth : Nat,
      ∀ m ∈ allNodes (buildLayoutTree n ctr depth).1,
        m.width = dynamicNodeWidth m.topic ∧ m.height = nodeHeight ∧
          m.x = 0 ∧ m.finalX = 0 := by
  refine mmInd
    (fun n => ∀ ctr depth : Nat,
      ∀ m ∈ allNodes (buildLayoutTree n ctr depth).1,
        m.width = dynamicNodeWidth m.topic ∧ m.height = nodeHeight ∧
          m.x = 0 ∧ m.finalX = 0)
    (fun l => ∀ ctr depth : Nat,
      ∀ m ∈ allNodesList (buildLayoutList l ctr depth).1,
        m.width = dynamicNodeWidth m.topic ∧ m.height = nodeHeight ∧
          m.x = 0 ∧ m.finalX = 0)
    ?_ ?_ ?_
  · intro t c hQ ctr depth m hm
    simp only [buildLayoutTree, allNodes, List.mem_cons] at hm
    rcases hm with rfl | hm
    · simp [LayoutNode.width, LayoutNode.topic, LayoutNode.height,
        LayoutNode.x, LayoutNode.finalX]
    · exact hQ (ctr + 1) (depth + 1) m hm
  · intro ctr depth m hm
    simp [buildLayoutList, allNodesList] at hm
  · intro n ns hP hQ ctr depth m hm
    simp only [buildLayoutList, allNodesList, List.mem_append] at hm
    rcases hm with hm | hm
    · exact hP ctr depth m hm
    · exact hQ (buildLayoutTree n ctr depth).2 depth m hm

theorem build_y :
    ∀ n : MindMapNode, ∀ ctr depth : Nat,
      ∀ p ∈ allNodesDepth (buildLayoutTree n ctr depth).1 depth,
        p.1.y = (p.2 : ℚ) * (nodeHeight + verticalGap) := by
  refine mmInd
    (fun n => ∀ ctr depth : Nat,
      ∀ p ∈ allNodesDepth (buildLayoutTree n ctr depth).1 depth,
        p.1.y = (p.2 : ℚ) * (nodeHeight + verticalGap))
    (fun l => ∀ ctr depth : Nat,
      ∀ p ∈ allNodesDepthList (buildLayoutList l ctr depth).1 depth,
        p.1.y = (p.2 : ℚ) * (nodeHeight + verticalGap))
    ?_ ?_ ?_
  · intro t c hQ ctr depth p hp
    simp only [buildLayoutTree, allNodesDepth, List.mem_cons] at hp
    rcases hp with rfl | hp
    · simp [LayoutNode.y]
    · exact hQ (ctr + 1) (depth + 1) p hp
  · intro ctr depth p hp
    simp [buildLayoutList, allNodesDepthList] at hp
  · intro n ns hP hQ ctr depth p hp
    simp only [buildLayoutList, allNodesDepthList, List.mem_append] at hp
    rcases hp with hp | hp
    · exact hP ctr depth p hp
    · exact hQ (buildLayoutTree n ctr depth).2 depth p hp

theorem build_ids :
    ∀ n : MindMapNode, ∀ ctr depth : Nat,
      (allNodes (buildLayoutTree n ctr depth).1).map LayoutNode.id =
          List.range' ctr (mmCount n) ∧
        (buildLayoutTree n ctr depth).2 = ctr + mmCount n := by
  refine mmInd
    (fun n => ∀ ctr depth : Nat,
      (allNodes (buildLayoutTree n ctr depth).1).map LayoutNode.id =
          List.range' ctr (mmCount n) ∧
        (buildLayoutTree n ctr depth).2 = ctr + mmCount n)
    (fun l => ∀ ctr depth : Nat,
      (allNodesList (buildLayoutList l ctr depth).1).map LayoutNode.id =
          List.range' ctr (mmCountList l) ∧
        (buildLayoutList l ctr depth).2 = ctr + mmCountList l)
    ?_ ?_ ?_
  · intro t c hQ ctr depth
    have h := hQ (ctr + 1) (depth + 1)
    constructor
    · simp only [buildLayoutTree, allNodes, List.map_cons, LayoutNode.id, mmCount]
      rw [h.1]
      have hone : 1 + mmCountList (childrenOrEmpty c) = mmCountList (childrenOrEmpty c) + 1 := by
        omega
      rw [hone, List.range'_succ]
    · simp only [buildLayoutTree, mmCount]
      rw [h.2]
      omega
  · intro ctr depth
    simp [buildLayoutList, allNodesList, mmCountList]
  · intro n ns hP hQ ctr depth
    have h1 := hP ctr depth
    have h2 := hQ (buildLayoutTree n ctr depth).2 depth
    constructor
    · simp only [buildLayoutList, allNodesList, List.map_append, mmCountList]
      rw [h1.1, h2.1, h1.2]
      have hr := List.range'_append ctr (mmCount n) (mmCountList ns) 1
      simp only [one_mul] at hr
      rw [Nat.add_comm (mmCount n) (mmCountList ns), ← hr]
    · simp only [buildLayoutList, mmCountList]
      rw [h2.2, h1.2]
      omega

/-! ## The bottom-up pass: subtree widths and child placement -/

/-- The width-assignment discipline of the bottom-up pass, per node: a
leaf keeps its box width, an internal node reserves
max(boxWidth, totalChildrenSpan).  The box width is recoverable from
the topic because buildLayoutTree set width := dynamicNodeWidth topic. -/
def WidthSpec (m : LayoutNode) : Prop :=
  (m.children = [] → m.width = dynamicNodeWidth m.topic) ∧
  (m.children ≠ [] →
    m.width = max (dynamicNodeWidth m.topic) (totalChildrenWidthOf m.children))

/-- Successive siblings advance by prev.width/2 + gap + cur.width/2. -/
def chainX : LayoutNode → List LayoutNode → Prop
  | _, [] => True
  | prev, c :: rest =>
    c.x = prev.x + prev.width / 2 + horizontalGap + c.width / 2 ∧ chainX c rest

/-- The children of m are centered as a block: the first child's
center sits at -span/2 + firstWidth/2 and the rest follow the chain. -/
def ChildPlacement (m : LayoutNode) : Prop :=
  match m.children with
  | [] => True
  | c :: rest =>
    c.x = -(totalChildrenWidthOf (c :: rest)) / 2 + c.width / 2 ∧ chainX c rest

/-- Horizontal separation of two placed siblings, in relative x. -/
def sepX (a b : LayoutNode) : Prop :=
  a.x + a.width / 2 + horizontalGap ≤ b.x - b.width / 2

theorem sumChildWidths_eq (l : List LayoutNode) :
    sumChildWidths l = (l.map LayoutNode.width).sum := by
  have h : ∀ init : ℚ, l.foldl (fun acc c => acc + c.width) init =
      init + (l.map LayoutNode.width).sum := by
    induction l with
    | nil => intro init; simp
    | cons c cs ih => intro init; simp [List.foldl_cons, ih]; ring
  simpa [sumChildWidths] using h 0

theorem totalChildrenWidthOf_congr {l₁ l₂ : List LayoutNode}
    (hw : l₁.map LayoutNode.width = l₂.map LayoutNode.width) :
    totalChildrenWidthOf l₁ = totalChildrenWidthOf l₂ := by
  have hlen : l₁.length = l₂.length := by
    have := congrArg List.length hw
    simpa using this
  simp [totalChildrenWidthOf, sumChildWidths_eq, hw, hlen]

theorem placeChildren_widths (l : List LayoutNode) :
    ∀ s : ℚ, (placeChildren l s).map LayoutNode.width = l.map LayoutNode.width := by
  induction l with
  | nil => intro s; simp [placeChildren]
  | cons a rest ih =>
    intro s
    cases a with
    | mk i t x y fx w h cs =>
      simp [placeChildren, LayoutNode.width, ih]

theorem placeChildren_total (l : List LayoutNode) (s : ℚ) :
    totalChildrenWidthOf (placeChildren l s) = totalChildrenWidthOf l :=
  totalChildrenWidthOf_congr (placeChildren_widths l s)

theorem placeChildren_chain (l : List LayoutNode) :
    ∀ (prev : LayoutNode) (cur : ℚ),
      cur = prev.x + prev.width / 2 + horizontalGap →
      chainX prev (placeChildren l cur) := by
  induction l with
  | nil => intro prev cur _; simp [placeChildren, chainX]
  | cons a rest ih =>
    intro prev cur hcur
    cases prev with
    | mk pi pt px py pfx pw ph pcs =>
      cases a with
      | mk i t x y fx w h cs =>
        simp only [LayoutNode.x, LayoutNode.width] at hcur
        simp only [placeChildren, chainX, LayoutNode.x, LayoutNode.width]
        constructor
        · rw [hcur]
        · exact ih (LayoutNode.mk i t (cur + w / 2) y fx w h cs)
            (cur + w + horizontalGap)
            (by simp only [LayoutNode.x, LayoutNode.width]; ring)

theorem placeChildren_head (a : LayoutNode) (rest : List LayoutNode) (s : ℚ) :
    ∃ p ps, placeChildren (a :: rest) s = p :: ps ∧
      p.x = s + p.width / 2 ∧ p.width = a.width ∧ chainX p ps := by
  cases a with
  | mk i t x y fx w h cs =>
    refine ⟨LayoutNode.mk i t (s + w / 2) y fx w h cs,
      placeChildren rest (s + w + horizontalGap), ?_, ?_, ?_, ?_⟩
    · simp [placeChildren]
    · simp [LayoutNode.x, LayoutNode.width]
    · simp [LayoutNode.width]
    · apply placeChildren_chain
      simp only [LayoutNode.x, LayoutNode.width]
      ring

theorem placeChildren_childPlacement (L : List LayoutNode)
    (i : Nat) (t : String) (x y fx w h : ℚ) :
    ChildPlacement (LayoutNode.mk i t x y fx w h
      (placeChildren L (-(totalChildrenWidthOf L) / 2))) := by
  cases L with
  | nil => simp [placeChildren, ChildPlacement, LayoutNode.children]
  | cons a rest =>
    obtain ⟨p, ps, heq, hpx, hpw, hchain⟩ :=
      placeChildren_head a rest (-(totalChildrenWidthOf (a :: rest)) / 2)
    have htot : totalChildrenWidthOf (p :: ps) = totalChildrenWidthOf (a :: rest) := by
      apply totalChildrenWidthOf_congr
      rw [← heq, placeChildren_widths]
    simp only [ChildPlacement, LayoutNode.children, heq]
    refine ⟨?_, hchain⟩
    rw [htot, hpx]

theorem widthSpec_x_congr (i : Nat) (t : String) (x1 x2 y fx w h : ℚ)
    (cs : List LayoutNode)
    (hws : WidthSpec (LayoutNode.mk i t x1 y fx w h cs)) :
    WidthSpec (LayoutNode.mk i t x2 y fx w h cs) := by
  simp only [WidthSpec, LayoutNode.children, LayoutNode.width, LayoutNode.topic] at hws ⊢
  exact hws

theorem childPlacement_x_congr (i : Nat) (t : String) (x1 x2 y fx w h : ℚ)
    (cs : List LayoutNode)
    (hcp : ChildPlacement (LayoutNode.mk i t x1 y fx w h cs)) :
    ChildPlacement (LayoutNode.mk i t x2 y fx w h cs) := by
  simp only [ChildPlacement, LayoutNode.children] at hcp ⊢
  exact hcp

theorem goodPlace (l : List LayoutNode) :
    ∀ s : ℚ,
      (∀ m ∈ allNodesList l, WidthSpec m ∧ ChildPlacement m) →
      ∀ m ∈ allNodesList (placeChildren l s), WidthSpec m ∧ ChildPlacement m := by
  induction l with
  | nil => intro s _ m hm; simp [placeChildren, allNodesList] at hm
  | cons a rest ih =>
    intro s hgood m hm
    cases a with
    | mk i t x y fx w h0 cs =>
      simp only [placeChildren, allNodesList, allNodes, List.mem_append,
        List.mem_cons] at hm
      have hroot := hgood (LayoutNode.mk i t x y fx w h0 cs)
        (by simp [allNodesList, allNodes])
      rcases hm with (rfl | hm) | hm
      · exact ⟨widthSpec_x_congr i t x _ y fx w h0 cs hroot.1,
          childPlacement_x_congr i t x _ y fx w h0 cs hroot.2⟩
      · refine hgood m ?_
        simp only [allNodesList, allNodes, List.mem_append, List.mem_cons]
        exact Or.inl (Or.inr hm)
      · refine ih (s + w + horizontalGap) (fun m2 hm2 => hgood m2 ?_) m hm
        simp only [allNodesList, List.mem_append]
        exact Or.inr hm2

theorem firstWalk_good :
    ∀ t : LayoutNode,
      (∀ m ∈ allNodes t, m.width = dynamicNodeWidth m.topic) →
      ∀ m ∈ allNodes (firstWalk t), WidthSpec m ∧ ChildPlacement m := by
  refine layoutInd
    (fun t => (∀ m ∈ allNodes t, m.width = dynamicNodeWidth m.topic) →
      ∀ m ∈ allNodes (firstWalk t), WidthSpec m ∧ ChildPlacement m)
    (fun l => (∀ m ∈ allNodesList l, m.width = dynamicNodeWidth m.topic) →
      ∀ m ∈ allNodesList (firstWalkList l), WidthSpec m ∧ ChildPlacement m)
    ?_ ?_ ?_
  · intro i t x y fx w h cs hQ hbox m hm
    cases cs with
    | nil =>
      simp only [firstWalk, allNodes, allNodesList, List.mem_cons,
        List.not_mem_nil, or_false] at hm
      subst hm
      have hw := hbox (LayoutNode.mk i t x y fx w h [])
        (by simp [allNodes, allNodesList])
      refine ⟨⟨fun _ => ?_, fun hne => ?_⟩, ?_⟩
      · simpa [LayoutNode.width, LayoutNode.topic] using hw
      · exact absurd (by simp [LayoutNode.children]) hne
      · simp [ChildPlacement, LayoutNode.children]
    | cons c rest =>
      have hfl : firstWalkList (c :: rest) = firstWalk c :: firstWalkList rest := by
        simp [firstWalkList]
      have hboxsub : ∀ m2 ∈ allNodesList (c :: rest),
          m2.width = dynamicNodeWidth m2.topic := by
        intro m2 hm2
        refine hbox m2 ?_
        simp only [allNodes, List.mem_cons]
        exact Or.inr hm2
      have hGood := hQ hboxsub
      rw [hfl] at hGood
      have hw := hbox (LayoutNode.mk i t x y fx w h (c :: rest))
        (self_mem_allNodes _)
      simp only [LayoutNode.width, LayoutNode.topic] at hw
      simp only [firstWalk, hfl, allNodes, List.mem_cons] at hm
      rcases hm with rfl | hm
      · constructor
        · constructor
          · intro hc
            exfalso
            obtain ⟨p, ps, heq, -, -, -⟩ :=
              placeChildren_head (firstWalk c) (firstWalkList rest)
                (-(totalChildrenWidthOf (firstWalk c :: firstWalkList rest)) / 2)
            simp only [LayoutNode.children] at hc
            rw [heq] at hc
            cases hc
          · intro _
            simp only [LayoutNode.width, LayoutNode.topic, LayoutNode.children]
            rw [placeChildren_total, hw]
        · exact placeChildren_childPlacement (firstWalk c :: firstWalkList rest)
            i t x y fx
            (max w (totalChildrenWidthOf (firstWalk c :: firstWalkList rest))) h
      · exact goodPlace (firstWalk c :: firstWalkList rest) _ hGood m hm
  · intro _ m hm
    simp [firstWalkList, allNodesList] at hm
  · intro c cs hP hQ hbox m hm
    simp only [firstWalkList, allNodesList, List.mem_append] at hm
    rcases hm with hm | hm
    · refine hP (fun m2 hm2 => hbox m2 ?_) m hm
      simp only [allNodesList, List.mem_append]
      exact Or.inl hm2
    · refine hQ (fun m2 hm2 => hbox m2 ?_) m hm
      simp only [allNodesList, List.mem_append]
      exact Or.inr hm2

theorem widthSpec_ge (m : LayoutNode) (hws : WidthSpec m) :
    dynamicNodeWidth m.topic ≤ m.width := by
  rcases hws with ⟨hleaf, hint⟩
  by_cases hc : m.children = []
  · rw [hleaf hc]
  · rw [hint hc]
    exact le_max_left _ _

theorem widthSpec_nonneg (m : LayoutNode) (hws : WidthSpec m) : 0 ≤ m.width :=
  le_trans (dynamicNodeWidth_pos m.topic) (widthSpec_ge m hws)

theorem horizontalGap_nonneg : (0 : ℚ) ≤ horizontalGap := by
  norm_num [horizontalGap]

theorem chainX_le (l : List LayoutNode) :
    ∀ prev : LayoutNode, chainX prev l → (∀ m ∈ l, 0 ≤ m.width) →
      ∀ b ∈ l, prev.x + prev.width / 2 + horizontalGap ≤ b.x - b.width / 2 := by
  induction l with
  | nil => intro prev _ _ b hb; cases hb
  | cons c rest ih =>
    intro prev hchain hw b hb
    simp only [chainX] at hchain
    rcases List.mem_cons.1 hb with rfl | hb
    · have h1 := hchain.1
      linarith
    · have h2 := ih c hchain.2 (fun m hm => hw m (List.mem_cons_of_mem _ hm)) b hb
      have hcw : 0 ≤ c.width := hw c (List.mem_cons_self _ _)
      have h1 := hchain.1
      have hG := horizontalGap_nonneg
      linarith

theorem chainX_pairwise (l : List LayoutNode) :
    ∀ prev : LayoutNode, chainX prev l → (∀ m ∈ prev :: l, 0 ≤ m.width) →
      List.Pairwise sepX (prev :: l) := by
  induction l with
  | nil => intro prev _ _; simp
  | cons c rest ih =>
    intro prev hchain hw
    simp only [chainX] at hchain
    constructor
    · intro b hb
      exact chainX_le (c :: rest) prev (by simp only [chainX]; exact hchain)
        (fun m hm => hw m (List.mem_cons_of_mem _ hm)) b hb
    · exact ih c hchain.2 (fun m hm => hw m (List.mem_cons_of_mem _ hm))

theorem childPlacement_pairwise (m : LayoutNode) (hcp : ChildPlacement m)
    (hw : ∀ c ∈ m.children, 0 ≤ c.width) : List.Pairwise sepX m.children := by
  cases m with
  | mk i t x y fx w h cs =>
    cases cs with
    | nil => simp [LayoutNode.children]
    | cons c rest =>
      simp only [ChildPlacement, LayoutNode.children] at hcp hw ⊢
      exact chainX_pairwise rest c hcp.2 hw

theorem firstWalk_x (t : LayoutNode) : (firstWalk t).x = t.x := by
  cases t with
  | mk i tt x y fx w h cs =>
    cases cs with
    | nil => simp [firstWalk, LayoutNode.x]
    | cons c rest => simp [firstWalk, LayoutNode.x]

theorem firstWalk_leaf (t : LayoutNode) (hc : t.children = []) :
    firstWalk t = t := by
  cases t with
  | mk i tt x y fx w h cs =>
    simp only [LayoutNode.children] at hc
    subst hc
    simp [firstWalk]

/-! ## The top-down pass: preservation, parent links, bounds -/

/-- The (relativeX, subtreeWidth) pairs of a node's children. -/
def csxw (m : LayoutNode) : List (ℚ × ℚ) :=
  m.children.map (fun c => (c.x, c.width))

/-- Everything the top-down pass leaves untouched at a node. -/
def metaSW (m : LayoutNode) : Nat × String × ℚ × ℚ × ℚ × ℚ × List (ℚ × ℚ) :=
  (m.id, m.topic, m.x, m.y, m.width, m.height, csxw m)

/-- c.finalX = parent.finalX + c.x, for every parent/child pair below m. -/
def ParentLink (m : LayoutNode) : Prop :=
  ∀ c ∈ m.children, c.finalX = m.finalX + c.x

theorem secondWalk_meta :
    ∀ t : LayoutNode, ∀ px : ℚ, ∀ b : Bounds,
      ((secondWalk t px b).1.x = t.x ∧ (secondWalk t px b).1.width = t.width) ∧
        (allNodes (secondWalk t px b).1).map metaSW = (allNodes t).map metaSW := by
  refine layoutInd
    (fun t => ∀ px b,
      ((secondWalk t px b).1.x = t.x ∧ (secondWalk t px b).1.width = t.width) ∧
        (allNodes (secondWalk t px b).1).map metaSW = (allNodes t).map metaSW)
    (fun l => ∀ px b,
      ((secondWalkList l px b).1.map (fun c => (c.x, c.width)) =
          l.map (fun c => (c.x, c.width))) ∧
        (allNodesList (secondWalkList l px b).1).map metaSW =
          (allNodesList l).map metaSW)
    ?_ ?_ ?_
  · intro i t x y fx w h cs hQ px b
    have hq := hQ (px + x) (stepBounds (px + x) w y b)
    constructor
    · constructor <;> simp [secondWalk, LayoutNode.x, LayoutNode.width]
    · simp only [secondWalk, allNodes, List.map_cons]
      rw [hq.2]
      congr 1
      have hq1 := hq.1
      simp only [metaSW, csxw, LayoutNode.id, LayoutNode.topic, LayoutNode.x,
        LayoutNode.y, LayoutNode.width, LayoutNode.height, LayoutNode.children] at hq1 ⊢
      rw [hq1]
  · intro px b
    constructor <;> simp [secondWalkList, allNodesList]
  · intro c cs hP hQ px b
    have hp := hP px b
    have hq := hQ px (secondWalk c px b).2
    constructor
    · simp only [secondWalkList, List.map_cons]
      rw [hp.1.1, hp.1.2, hq.1]
    · simp only [secondWalkList, allNodesList, List.map_append]
      rw [hp.2, hq.2]

theorem secondWalk_finalX (t : LayoutNode) (px : ℚ) (b : Bounds) :
    (secondWalk t px b).1.finalX = px + t.x := by
  cases t with
  | mk i tt x y fx w h cs => simp [secondWalk, LayoutNode.finalX, LayoutNode.x]

theorem secondWalk_link :
    ∀ t : LayoutNode, ∀ px : ℚ, ∀ b : Bounds,
      ∀ m ∈ allNodes (secondWalk t px b).1, ParentLink m := by
  refine layoutInd
    (fun t => ∀ px b, ∀ m ∈ allNodes (secondWalk t px b).1, ParentLink m)
    (fun l => ∀ px b,
      (∀ e ∈ (secondWalkList l px b).1, e.finalX = px + e.x) ∧
        (∀ m ∈ allNodesList (secondWalkList l px b).1, ParentLink m))
    ?_ ?_ ?_
  · intro i t x y fx w h cs hQ px b m hm
    have hq := hQ (px + x) (stepBounds (px + x) w y b)
    simp only [secondWalk, allNodes, List.mem_cons] at hm
    rcases hm with rfl | hm
    · intro c hc
      simp only [LayoutNode.children] at hc
      simp only [LayoutNode.finalX]
      exact hq.1 c hc
    · exact hq.2 m hm
  · intro px b
    refine ⟨?_, ?_⟩ <;> intro m hm <;> simp [secondWalkList, allNodesList] at hm
  · intro c cs hP hQ px b
    have hq := hQ px (secondWalk c px b).2
    constructor
    · intro e he
      simp only [secondWalkList, List.mem_cons] at he
      rcases he with rfl | he
      · rw [secondWalk_finalX, (secondWalk_meta c px b).1.1]
      · exact hq.1 e he
    · intro m hm
      simp only [secondWalkList, allNodesList, List.mem_append] at hm
      rcases hm with hm | hm
      · exact hP px b m hm
      · exact hq.2 m hm

/-- One node's contribution to the running bounds, as folded by the
top-down pass. -/
def stepNode (acc : Bounds) (m : LayoutNode) : Bounds :=
  stepBounds m.finalX m.width m.y acc

theorem secondWalk_bounds_fold :
    ∀ t : LayoutNode, ∀ px : ℚ, ∀ b : Bounds,
      (secondWalk t px b).2 =
        (allNodes (secondWalk t px b).1).foldl stepNode b := by
  refine layoutInd
    (fun t => ∀ px b,
      (secondWalk t px b).2 = (allNodes (secondWalk t px b).1).foldl stepNode b)
    (fun l => ∀ px b,
      (secondWalkList l px b).2 =
        (allNodesList (secondWalkList l px b).1).foldl stepNode b)
    ?_ ?_ ?_
  · intro i t x y fx w h cs hQ px b
    have hq := hQ (px + x) (stepBounds (px + x) w y b)
    simp only [secondWalk, allNodes, List.foldl_cons]
    rw [hq]
    congr 1
  · intro px b
    simp [secondWalkList, allNodesList]
  · intro c cs hP hQ px b
    have hq := hQ px (secondWalk c px b).2
    simp only [secondWalkList, allNodesList, List.foldl_append]
    rw [hq, hP px b]

theorem foldl_stepNode_extends (L : List LayoutNode) :
    ∀ b : Bounds, (L.foldl stepNode b).minX ≤ b.minX ∧
      b.maxX ≤ (L.foldl stepNode b).maxX ∧ b.maxY ≤ (L.foldl stepNode b).maxY := by
  induction L with
  | nil => intro b; simp
  | cons m L ih =>
    intro b
    have h := ih (stepNode b m)
    simp only [List.foldl_cons]
    refine ⟨le_trans h.1 ?_, le_trans ?_ h.2.1, le_trans ?_ h.2.2⟩
    · simp [stepNode, stepBounds]
    · simp [stepNode, stepBounds]
    · simp [stepNode, stepBounds]

theorem foldl_stepNode_covers (L : List LayoutNode) :
    ∀ b : Bounds, ∀ m ∈ L,
      (L.foldl stepNode b).minX ≤ m.finalX - m.width / 2 ∧
        m.finalX + m.width / 2 ≤ (L.foldl stepNode b).maxX ∧
        m.y ≤ (L.foldl stepNode b).maxY := by
  induction L with
  | nil => intro b m hm; cases hm
  | cons a L ih =>
    intro b m hm
    simp only [List.foldl_cons]
    rcases List.mem_cons.1 hm with rfl | hm
    · have h := foldl_stepNode_extends L (stepNode b m)
      refine ⟨le_trans h.1 ?_, le_trans ?_ h.2.1, le_trans ?_ h.2.2⟩
      · simp [stepNode, stepBounds]
      · simp [stepNode, stepBounds]
      · simp [stepNode, stepBounds]
    · exact ih (stepNode b a) m hm

/-! ## What the bottom-up pass leaves untouched -/

/-- id, topic, y and height are never written by firstWalk. -/
def metaFW (m : LayoutNode) : Nat × String × ℚ × ℚ :=
  (m.id, m.topic, m.y, m.height)

theorem placeChildren_metaFW (l : List LayoutNode) :
    ∀ s : ℚ, (allNodesList (placeChildren l s)).map metaFW =
      (allNodesList l).map metaFW := by
  induction l with
  | nil => intro s; simp [placeChildren]
  | cons a rest ih =>
    intro s
    cases a with
    | mk i t x y fx w h cs =>
      simp only [placeChildren, allNodesList, allNodes, List.map_append,
        List.map_cons]
      rw [ih]
      congr 1

theorem firstWalk_metaFW :
    ∀ t : LayoutNode,
      (allNodes (firstWalk t)).map metaFW = (allNodes t).map metaFW := by
  refine layoutInd
    (fun t => (allNodes (firstWalk t)).map metaFW = (allNodes t).map metaFW)
    (fun l => (allNodesList (firstWalkList l)).map metaFW =
      (allNodesList l).map metaFW)
    ?_ ?_ ?_
  · intro i t x y fx w h cs hQ
    cases cs with
    | nil => simp [firstWalk]
    | cons c rest =>
      have hfl : firstWalkList (c :: rest) = firstWalk c :: firstWalkList rest := by
        simp [firstWalkList]
      rw [hfl] at hQ
      simp only [firstWalk, hfl, allNodes, List.map_cons]
      rw [placeChildren_metaFW, hQ]
      congr 1
  · simp [firstWalkList, allNodesList]
  · intro c cs hP hQ
    simp only [firstWalkList, allNodesList, List.map_append]
    rw [hP, hQ]

/-! ## Normalization of the tree -/

theorem normalizeList_eq_map (l : List LayoutNode) (minX : ℚ) :
    normalizeList l minX = l.map (fun c => normalizeTree c minX) := by
  induction l with
  | nil => simp [normalizeList]
  | cons c cs ih => simp [normalizeList, ih]

theorem normalizeTree_fields (t : LayoutNode) (minX : ℚ) :
    (normalizeTree t minX).id = t.id ∧ (normalizeTree t minX).topic = t.topic ∧
      (normalizeTree t minX).x = t.x ∧
      (normalizeTree t minX).y = t.y + padding ∧
      (normalizeTree t minX).finalX = t.finalX - minX + padding ∧
      (normalizeTree t minX).width = t.width ∧
      (normalizeTree t minX).height = t.height ∧
      (normalizeTree t minX).children = normalizeList t.children minX := by
  cases t with
  | mk i tt x y fx w h cs =>
    simp [normalizeTree, LayoutNode.id, LayoutNode.topic, LayoutNode.x,
      LayoutNode.y, LayoutNode.finalX, LayoutNode.width, LayoutNode.height,
      LayoutNode.children]

/-- What normalization does, per node, on the interesting fields. -/
def projNT (m : LayoutNode) : Nat × String × ℚ × ℚ × ℚ × ℚ × ℚ × List (ℚ × ℚ) :=
  (m.id, m.topic, m.x, m.y, m.finalX, m.width, m.height, csxw m)

theorem normalizeTree_proj :
    ∀ t : LayoutNode, ∀ minX : ℚ,
      (allNodes (normalizeTree t minX)).map projNT =
        (allNodes t).map (fun m =>
          (m.id, m.topic, m.x, m.y + padding, m.finalX - minX + padding,
            m.width, m.height, csxw m)) := by
  refine layoutInd
    (fun t => ∀ minX : ℚ,
      (allNodes (normalizeTree t minX)).map projNT =
        (allNodes t).map (fun m =>
          (m.id, m.topic, m.x, m.y + padding, m.finalX - minX + padding,
            m.width, m.height, csxw m)))
    (fun l => ∀ minX : ℚ,
      (allNodesList (normalizeList l minX)).map projNT =
        (allNodesList l).map (fun m =>
          (m.id, m.topic, m.x, m.y + padding, m.finalX - minX + padding,
            m.width, m.height, csxw m)))
    ?_ ?_ ?_
  · intro i t x y fx w h cs hQ minX
    simp only [normalizeTree, allNodes, List.map_cons]
    rw [hQ]
    congr 1
    simp only [projNT, csxw, id_mk, topic_mk, x_mk, y_mk, finalX_mk, width_mk,
      height_mk, children_mk, normalizeList_eq_map, List.map_map]
    have hmap : List.map ((fun c => (c.x, c.width)) ∘ fun c => normalizeTree c minX) cs =
        List.map (fun c => (c.x, c.width)) cs := by
      refine List.map_congr_left ?_
      intro c _
      have hf := normalizeTree_fields c minX
      simp only [Function.comp_apply, hf.2.2.1, hf.2.2.2.2.2.1]
    rw [hmap]
  · intro minX
    simp [normalizeList, allNodesList]
  · intro c cs hP hQ minX
    simp only [normalizeList, allNodesList, List.map_append]
    rw [hP, hQ]

theorem normalizeTree_link :
    ∀ t : LayoutNode, ∀ minX : ℚ,
      (∀ m ∈ allNodes t, ParentLink m) →
      ∀ m ∈ allNodes (normalizeTree t minX), ParentLink m := by
  refine layoutInd
    (fun t => ∀ minX : ℚ, (∀ m ∈ allNodes t, ParentLink m) →
      ∀ m ∈ allNodes (normalizeTree t minX), ParentLink m)
    (fun l => ∀ minX : ℚ, (∀ m ∈ allNodesList l, ParentLink m) →
      ∀ m ∈ allNodesList (normalizeList l minX), ParentLink m)
    ?_ ?_ ?_
  · intro i t x y fx w h cs hQ minX hlink m hm
    simp only [normalizeTree, allNodes, List.mem_cons] at hm
    rcases hm with rfl | hm
    · intro c hc
      simp only [children_mk, normalizeList_eq_map, List.mem_map] at hc
      obtain ⟨c0, hc0, rfl⟩ := hc
      have horig := hlink (LayoutNode.mk i t x y fx w h cs) (self_mem_allNodes _)
        c0 (by simpa using hc0)
      simp only [finalX_mk] at horig
      have hf := normalizeTree_fields c0 minX
      rw [hf.2.2.2.2.1, hf.2.2.1, finalX_mk, horig]
      ring
    · refine hQ minX (fun m2 hm2 => hlink m2 ?_) m hm
      simp only [allNodes, List.mem_cons]
      exact Or.inr hm2
  · intro minX _ m hm
    simp [normalizeList, allNodesList] at hm
  · intro c cs hP hQ minX hlink m hm
    simp only [normalizeList, allNodesList, List.mem_append] at hm
    rcases hm with hm | hm
    · refine hP minX (fun m2 hm2 => hlink m2 ?_) m hm
      simp only [allNodesList, List.mem_append]
      exact Or.inl hm2
    · refine hQ minX (fun m2 hm2 => hlink m2 ?_) m hm
      simp only [allNodesList, List.mem_append]
      exact Or.inr hm2

/-! ## The breadth-first output -/

/-- The record pushed for one dequeued node. -/
def place (m : LayoutNode) : PlacedNode :=
  ⟨m.id, m.topic, m.finalX, m.y, m.width, m.height, m.children.map LayoutNode.id⟩

theorem mem_allNodesList_elim {m : LayoutNode} {l : List LayoutNode} :
    m ∈ allNodesList l ↔ ∃ r ∈ l, m ∈ allNodes r := by
  induction l with
  | nil => simp [allNodesList]
  | cons a rest ih =>
    simp only [allNodesList, List.mem_append, ih, List.mem_cons]
    constructor
    · rintro (h | ⟨r, hr, hm⟩)
      · exact ⟨a, Or.inl rfl, h⟩
      · exact ⟨r, Or.inr hr, hm⟩
    · rintro ⟨r, rfl | hr, hm⟩
      · exact Or.inl hm
      · exact Or.inr ⟨r, hr, hm⟩

theorem child_mem_allNodesList {m c : LayoutNode} {l : List LayoutNode}
    (hm : m ∈ allNodesList l) (hc : c ∈ m.children) : c ∈ allNodesList l := by
  obtain ⟨r, hr, hmr⟩ := mem_allNodesList_elim.1 hm
  exact mem_allNodesList_elim.2 ⟨r, hr, child_mem_of_mem hmr hc⟩

theorem bfsFlat_perm :
    ∀ q : List LayoutNode, (bfsFlat q).Perm ((allNodesList q).map place) := by
  intro q
  induction q using bfsFlat.induct with
  | case1 => simp [bfsFlat, allNodesList]
  | case2 i t x y fx w h cs queue ih =>
    simp only [bfsFlat, allNodesList, allNodes, List.map_append, List.map_cons]
    refine List.Perm.trans (List.Perm.cons _ ih) ?_
    rw [allNodesList_append, List.map_append]
    have hhead : place (LayoutNode.mk i t x y fx w h cs) =
        ⟨i, t, fx, y, w, h, cs.map LayoutNode.id⟩ := rfl
    rw [← hhead]
    refine List.Perm.trans (List.Perm.cons _ (List.perm_append_comm)) ?_
    simp [List.cons_append]

theorem normalizeList_ids (l : List LayoutNode) (minX : ℚ) :
    (normalizeList l minX).map LayoutNode.id = l.map LayoutNode.id := by
  rw [normalizeList_eq_map, List.map_map]
  refine List.map_congr_left ?_
  intro c _
  exact (normalizeTree_fields c minX).1

theorem bfsNodes_eq_flat :
    ∀ (q : List LayoutNode) (minX : ℚ),
      bfsNodes q minX = bfsFlat (normalizeList q minX) := by
  intro q minX
  induction q, minX using bfsNodes.induct with
  | case1 => simp [bfsNodes, normalizeList, bfsFlat]
  | case2 i t x y fx w h cs queue minX ih =>
    have happ : normalizeList (queue ++ cs) minX =
        normalizeList queue minX ++ normalizeList cs minX := by
      simp [normalizeList_eq_map]
    simp only [bfsNodes, normalizeList, normalizeTree, bfsFlat]
    rw [ih, happ, normalizeList_ids]

theorem bfsFlat_parent_first :
    ∀ q : List LayoutNode,
      ((allNodesList q).map LayoutNode.id).Nodup →
      ∀ m ∈ allNodesList q, ∀ c ∈ m.children,
        ((bfsFlat q).map PlacedNode.id).indexOf m.id <
          ((bfsFlat q).map PlacedNode.id).indexOf c.id := by
  intro q
  induction q using bfsFlat.induct with
  | case1 =>
    intro _ m hm
    simp [allNodesList] at hm
  | case2 i t x y fx w h cs queue ih =>
    intro hnd m hm c hc
    have hids : (allNodesList (LayoutNode.mk i t x y fx w h cs :: queue)).map
        LayoutNode.id =
        i :: ((allNodesList cs).map LayoutNode.id ++
          (allNodesList queue).map LayoutNode.id) := by
      simp [allNodesList, allNodes]
    rw [hids] at hnd
    have hnotin := (List.nodup_cons.1 hnd).1
    have hndtail := (List.nodup_cons.1 hnd).2
    have hndswap : ((allNodesList (queue ++ cs)).map LayoutNode.id).Nodup := by
      rw [allNodesList_append, List.map_append]
      exact List.perm_append_comm.nodup hndtail
    have hbfs : (bfsFlat (LayoutNode.mk i t x y fx w h cs :: queue)).map
        PlacedNode.id =
        i :: (bfsFlat (queue ++ cs)).map PlacedNode.id := by
      simp [bfsFlat]
    rw [hbfs]
    simp only [allNodesList, allNodes, List.mem_append, List.mem_cons] at hm
    rcases hm with (rfl | hm) | hm
    · -- m is the dequeued node: its children end up in the tail
      simp only [children_mk] at hc
      have hcid : c.id ∈ (allNodesList cs).map LayoutNode.id :=
        List.mem_map_of_mem _ (mem_allNodesList_of_mem hc (self_mem_allNodes c))
      have hne : i ≠ c.id := by
        intro hcontra
        exact hnotin (List.mem_append.2 (Or.inl (hcontra ▸ hcid)))
      rw [id_mk, List.indexOf_cons_self, List.indexOf_cons_ne _ hne]
      exact Nat.succ_pos _
    · -- m is a proper descendant of the dequeued node
      have hm2 : m ∈ allNodesList (queue ++ cs) := by
        rw [allNodesList_append]
        exact List.mem_append.2 (Or.inr hm)
      have hmid : m.id ∈ (allNodesList cs).map LayoutNode.id :=
        List.mem_map_of_mem _ hm
      have hnem : i ≠ m.id := by
        intro hcontra
        exact hnotin (List.mem_append.2 (Or.inl (hcontra ▸ hmid)))
      have hc2 : c ∈ allNodesList (queue ++ cs) := child_mem_allNodesList hm2 hc
      have hcid : c.id ∈ (allNodesList cs ++ allNodesList queue).map
          LayoutNode.id := by
        rw [← allNodesList_append] at *
        have := List.mem_map_of_mem LayoutNode.id hc2
        rw [allNodesList_append] at this
        rw [allNodesList_append]
        simp only [List.map_append, List.mem_append] at this ⊢
        tauto
      have hnec : i ≠ c.id := by
        intro hcontra
        rw [List.map_append] at hcid
        exact hnotin (hcontra ▸ hcid)
      rw [List.indexOf_cons_ne _ hnem, List.indexOf_cons_ne _ hnec]
      exact Nat.succ_lt_succ (ih hndswap m hm2 c hc)
    · -- m sits in one of the other queued subtrees
      have hm2 : m ∈ allNodesList (queue ++ cs) := by
        rw [allNodesList_append]
        exact List.mem_append.2 (Or.inl hm)
      have hmid : m.id ∈ (allNodesList queue).map LayoutNode.id :=
        List.mem_map_of_mem _ hm
      have hnem : i ≠ m.id := by
        intro hcontra
        exact hnotin (List.mem_append.2 (Or.inr (hcontra ▸ hmid)))
      have hc2 : c ∈ allNodesList (queue ++ cs) := child_mem_allNodesList hm2 hc
      have hcid := List.mem_map_of_mem LayoutNode.id hc2
      rw [allNodesList_append, List.map_append] at hcid
      have hnec : i ≠ c.id := by
        intro hcontra
        rcases List.mem_append.1 hcid with hin | hin
        · exact hnotin (List.mem_append.2 (Or.inr (hcontra ▸ hin)))
        · exact hnotin (List.mem_append.2 (Or.inl (hcontra ▸ hin)))
      rw [List.indexOf_cons_ne _ hnem, List.indexOf_cons_ne _ hnec]
      exact Nat.succ_lt_succ (ih hndswap m hm2 c hc)

/-! ## Transport of per-node facts along the passes -/

theorem mem_of_map_eq {α β : Type} {f g : α → β} {l1 l2 : List α}
    (h : l1.map f = l2.map g) {m : α} (hm : m ∈ l1) :
    ∃ m2 ∈ l2, f m = g m2 := by
  have hmem : f m ∈ l2.map g := h ▸ List.mem_map_of_mem f hm
  obtain ⟨m2, hm2, he⟩ := List.mem_map.1 hmem
  exact ⟨m2, hm2, he.symm⟩

theorem firstWalk_ids (t : LayoutNode) :
    (allNodes (firstWalk t)).map LayoutNode.id = (allNodes t).map LayoutNode.id := by
  have h := congrArg (List.map (fun p : Nat × String × ℚ × ℚ => p.1))
    (firstWalk_metaFW t)
  simpa [List.map_map, Function.comp, metaFW] using h

theorem secondWalk_ids (t : LayoutNode) (px : ℚ) (b : Bounds) :
    (allNodes (secondWalk t px b).1).map LayoutNode.id =
      (allNodes t).map LayoutNode.id := by
  have h := congrArg
    (List.map (fun p : Nat × String × ℚ × ℚ × ℚ × ℚ × List (ℚ × ℚ) => p.1))
    (secondWalk_meta t px b).2
  simpa [List.map_map, Function.comp, metaSW] using h

theorem normalizeTree_ids (t : LayoutNode) (minX : ℚ) :
    (allNodes (normalizeTree t minX)).map LayoutNode.id =
      (allNodes t).map LayoutNode.id := by
  have h := congrArg
    (List.map (fun p : Nat × String × ℚ × ℚ × ℚ × ℚ × ℚ × List (ℚ × ℚ) => p.1))
    (normalizeTree_proj t minX)
  simpa [List.map_map, Function.comp, projNT] using h

theorem allNodesList_singleton (t : LayoutNode) :
    allNodesList [t] = allNodes t := by
  simp [allNodesList]

/-! ## Depth of a node versus its y coordinate -/

/-- The (y, depth) view of a node: both passes preserve it. -/
def projYD (p : LayoutNode × Nat) : ℚ × Nat := (p.1.y, p.2)

theorem allNodesDepth_fst :
    ∀ t : LayoutNode, ∀ d : Nat, (allNodesDepth t d).map Prod.fst = allNodes t := by
  refine layoutInd
    (fun t => ∀ d, (allNodesDepth t d).map Prod.fst = allNodes t)
    (fun l => ∀ d, (allNodesDepthList l d).map Prod.fst = allNodesList l)
    ?_ ?_ ?_
  · intro i t x y fx w h cs hQ d
    simp only [allNodesDepth, allNodes, List.map_cons]
    rw [hQ]
  · intro d
    simp [allNodesDepthList, allNodesList]
  · intro c cs hP hQ d
    simp only [allNodesDepthList, allNodesList, List.map_append]
    rw [hP, hQ]

theorem placeChildren_ydepth (l : List LayoutNode) :
    ∀ (s : ℚ) (d : Nat),
      (allNodesDepthList (placeChildren l s) d).map projYD =
        (allNodesDepthList l d).map projYD := by
  induction l with
  | nil => intro s d; simp [placeChildren]
  | cons a rest ih =>
    intro s d
    cases a with
    | mk i t x y fx w h cs =>
      simp only [placeChildren, allNodesDepthList, allNodesDepth,
        List.map_append, List.map_cons]
      rw [ih]
      congr 1

theorem firstWalk_ydepth :
    ∀ t : LayoutNode, ∀ d : Nat,
      (allNodesDepth (firstWalk t) d).map projYD =
        (allNodesDepth t d).map projYD := by
  refine layoutInd
    (fun t => ∀ d, (allNodesDepth (firstWalk t) d).map projYD =
      (allNodesDepth t d).map projYD)
    (fun l => ∀ d, (allNodesDepthList (firstWalkList l) d).map projYD =
      (allNodesDepthList l d).map projYD)
    ?_ ?_ ?_
  · intro i t x y fx w h cs hQ d
    cases cs with
    | nil => simp [firstWalk]
    | cons c rest =>
      have hfl : firstWalkList (c :: rest) = firstWalk c :: firstWalkList rest := by
        simp [firstWalkList]
      rw [hfl] at hQ
      simp only [firstWalk, hfl, allNodesDepth, List.map_cons]
      rw [placeChildren_ydepth, hQ]
      congr 1
  · intro d
    simp [firstWalkList, allNodesDepthList]
  · intro c cs hP hQ d
    simp only [firstWalkList, allNodesDepthList, List.map_append]
    rw [hP, hQ]

theorem secondWalk_ydepth :
    ∀ t : LayoutNode, ∀ (px : ℚ) (b : Bounds) (d : Nat),
      (allNodesDepth (secondWalk t px b).1 d).map projYD =
        (allNodesDepth t d).map projYD := by
  refine layoutInd
    (fun t => ∀ px b d, (allNodesDepth (secondWalk t px b).1 d).map projYD =
      (allNodesDepth t d).map projYD)
    (fun l => ∀ px b d,
      (allNodesDepthList (secondWalkList l px b).1 d).map projYD =
        (allNodesDepthList l d).map projYD)
    ?_ ?_ ?_
  · intro i t x y fx w h cs hQ px b d
    simp only [secondWalk, allNodesDepth, List.map_cons]
    rw [hQ]
    congr 1
  · intro px b d
    simp [secondWalkList, allNodesDepthList]
  · intro c cs hP hQ px b d
    simp only [secondWalkList, allNodesDepthList, List.map_append]
    rw [hP, hQ]

theorem resolvedTree_ydepth (root : MindMapNode) :
    ∀ p ∈ allNodesDepth (resolvedTree root) 0,
      p.1.y = (p.2 : ℚ) * (nodeHeight + verticalGap) := by
  intro p hp
  have h1 := secondWalk_ydepth (firstWalk (buildLayoutTree root 0 0).1) 0
    ⟨0, 0, 0⟩ 0
  have h2 := firstWalk_ydepth (buildLayoutTree root 0 0).1 0
  have htrans := h1.trans h2
  obtain ⟨p2, hp2, he⟩ := mem_of_map_eq htrans hp
  have hb := build_y root 0 0 p2 hp2
  simp only [projYD, Prod.mk.injEq] at he
  rw [he.1, he.2, hb]

theorem build_y_nonneg (root : MindMapNode) :
    ∀ m ∈ allNodes (buildLayoutTree root 0 0).1, 0 ≤ m.y := by
  intro m hm
  rw [← allNodesDepth_fst (buildLayoutTree root 0 0).1 0] at hm
  obtain ⟨p, hp, rfl⟩ := List.mem_map.1 hm
  rw [build_y root 0 0 p hp]
  have h1 : (0 : ℚ) ≤ (p.2 : ℚ) := Nat.cast_nonneg _
  have h2 : (0 : ℚ) ≤ nodeHeight + verticalGap := by
    norm_num [nodeHeight, verticalGap]
  positivity

/-! ## Facts about the assembled pipeline, per input tree -/

/-- Separation of two (relativeX, width) pairs by at least one gap. -/
def sepPair (a b : ℚ × ℚ) : Prop :=
  a.1 + a.2 / 2 + horizontalGap ≤ b.1 - b.2 / 2

theorem walked_good (root : MindMapNode) :
    ∀ m ∈ allNodes (firstWalk (buildLayoutTree root 0 0).1),
      WidthSpec m ∧ ChildPlacement m :=
  firstWalk_good (buildLayoutTree root 0 0).1
    (fun m hm => (build_fields root 0 0 m hm).1)

theorem walked_width_min (root : MindMapNode) :
    ∀ m ∈ allNodes (firstWalk (buildLayoutTree root 0 0).1),
      MIN_NODE_WIDTH ≤ m.width :=
  fun m hm => le_trans (dynamicNodeWidth_ge_min m.topic)
    (widthSpec_ge m (walked_good root m hm).1)

theorem walked_sep (root : MindMapNode) :
    ∀ m ∈ allNodes (firstWalk (buildLayoutTree root 0 0).1),
      List.Pairwise sepX m.children := by
  intro m hm
  refine childPlacement_pairwise m (walked_good root m hm).2 ?_
  intro c hc
  have hcm := child_mem_of_mem hm hc
  have h1 := walked_width_min root c hcm
  have h2 : (0 : ℚ) ≤ MIN_NODE_WIDTH := by norm_num [MIN_NODE_WIDTH]
  linarith

theorem walked_sepPair (root : MindMapNode) :
    ∀ m ∈ allNodes (firstWalk (buildLayoutTree root 0 0).1),
      List.Pairwise sepPair (csxw m) := by
  intro m hm
  have h := walked_sep root m hm
  rw [csxw, List.pairwise_map]
  exact h.imp (fun hab => hab)

theorem walked_meta (root : MindMapNode) :
    ∀ m ∈ allNodes (firstWalk (buildLayoutTree root 0 0).1),
      m.height = nodeHeight ∧ 0 ≤ m.y := by
  intro m hm
  obtain ⟨m0, hm0, he⟩ := mem_of_map_eq
    (firstWalk_metaFW (buildLayoutTree root 0 0).1) hm
  simp only [metaFW, Prod.mk.injEq] at he
  refine ⟨?_, ?_⟩
  · rw [he.2.2.2]
    exact (build_fields root 0 0 m0 hm0).2.1
  · rw [he.2.2.1]
    exact build_y_nonneg root m0 hm0

theorem resolved_facts (root : MindMapNode) :
    ∀ m ∈ allNodes (resolvedTree root),
      MIN_NODE_WIDTH ≤ m.width ∧ m.height = nodeHeight ∧ 0 ≤ m.y ∧
        List.Pairwise sepPair (csxw m) := by
  intro m hm
  have hms : resolvedTree root =
      (secondWalk (firstWalk (buildLayoutTree root 0 0).1) 0 ⟨0, 0, 0⟩).1 := rfl
  rw [hms] at hm
  obtain ⟨m1, hm1, he⟩ := mem_of_map_eq
    ((secondWalk_meta (firstWalk (buildLayoutTree root 0 0).1) 0 ⟨0, 0, 0⟩).2) hm
  simp only [metaSW, Prod.mk.injEq] at he
  refine ⟨?_, ?_, ?_, ?_⟩
  · rw [he.2.2.2.2.1]
    exact walked_width_min root m1 hm1
  · rw [he.2.2.2.2.2.1]
    exact (walked_meta root m1 hm1).1
  · rw [he.2.2.2.1]
    exact (walked_meta root m1 hm1).2
  · rw [he.2.2.2.2.2.2]
    exact walked_sepPair root m1 hm1

theorem resolved_link (root : MindMapNode) :
    ∀ m ∈ allNodes (resolvedTree root), ParentLink m :=
  secondWalk_link (firstWalk (buildLayoutTree root 0 0).1) 0 ⟨0, 0, 0⟩

theorem layoutBounds_fold (root : MindMapNode) :
    layoutBounds root = (allNodes (resolvedTree root)).foldl stepNode ⟨0, 0, 0⟩ :=
  secondWalk_bounds_fold (firstWalk (buildLayoutTree root 0 0).1) 0 ⟨0, 0, 0⟩

theorem layoutBounds_covers (root : MindMapNode) :
    ∀ m ∈ allNodes (resolvedTree root),
      (layoutBounds root).minX ≤ m.finalX - m.width / 2 ∧
        m.finalX + m.width / 2 ≤ (layoutBounds root).maxX ∧
        m.y ≤ (layoutBounds root).maxY := by
  intro m hm
  rw [layoutBounds_fold root]
  exact foldl_stepNode_covers _ _ m hm

theorem layoutBounds_zero (root : MindMapNode) :
    (layoutBounds root).minX ≤ 0 ∧ 0 ≤ (layoutBounds root).maxX ∧
      0 ≤ (layoutBounds root).maxY := by
  rw [layoutBounds_fold root]
  exact foldl_stepNode_extends (allNodes (resolvedTree root)) ⟨0, 0, 0⟩

theorem simpleTreeLayout_nodes_eq (root : MindMapNode) :
    (simpleTreeLayout root).nodes = bfsFlat [finalTree root] := by
  have h := bfsNodes_eq_flat [resolvedTree root] (layoutBounds root).minX
  have h2 : normalizeList [resolvedTree root] (layoutBounds root).minX =
      [finalTree root] := by
    simp [normalizeList, finalTree]
  rw [h2] at h
  exact h

theorem final_mem (root : MindMapNode) :
    ∀ p ∈ (simpleTreeLayout root).nodes,
      ∃ m ∈ allNodes (finalTree root), p = place m := by
  intro p hp
  rw [simpleTreeLayout_nodes_eq root] at hp
  have hperm := bfsFlat_perm [finalTree root]
  have hp2 := hperm.mem_iff.1 hp
  rw [allNodesList_singleton] at hp2
  obtain ⟨m, hm, he⟩ := List.mem_map.1 hp2
  exact ⟨m, hm, he.symm⟩

theorem final_from_resolved (root : MindMapNode) :
    ∀ m ∈ allNodes (finalTree root),
      ∃ m2 ∈ allNodes (resolvedTree root),
        m.id = m2.id ∧ m.topic = m2.topic ∧ m.x = m2.x ∧
          m.y = m2.y + padding ∧
          m.finalX = m2.finalX - (layoutBounds root).minX + padding ∧
          m.width = m2.width ∧ m.height = m2.height ∧ csxw m = csxw m2 := by
  intro m hm
  obtain ⟨m2, hm2, he⟩ := mem_of_map_eq
    (normalizeTree_proj (resolvedTree root) (layoutBounds root).minX) hm
  simp only [projNT, Prod.mk.injEq] at he
  exact ⟨m2, hm2, he.1, he.2.1, he.2.2.1, he.2.2.2.1, he.2.2.2.2.1,
    he.2.2.2.2.2.1, he.2.2.2.2.2.2⟩

/-! ## Concrete example inputs used by witnesses and counterexamples -/

/-- Root "A" with two leaf children "B" and "C". -/
def exTreeA : MindMapNode :=
  .mk "A" (some [.mk "B" none, .mk "C" none])

/-- The same tree as exTreeA, presented as an (acyclic) object graph. -/
def exGraphA : ObjectGraph :=
  ⟨[("A", [1, 2]), ("B", []), ("C", [])]⟩

/-! ## Claim theorems -/

/-- C5: every node's box width is clamp(label.length * 8 + 20, 80, 220),
its box height is the fixed constant 50, and a label whose computed
width exceeds 220 is clamped exactly to 220. -/
theorem C5_box_dimensions (root : MindMapNode) (ctr depth : Nat) :
    ∀ m ∈ allNodes (buildLayoutTree root ctr depth).1,
      m.width = max 80 (min 220 ((m.topic.length : ℚ) * 8 + 20)) ∧
        m.height = 50 ∧
        (220 < (m.topic.length : ℚ) * 8 + 20 → m.width = 220) := by
  intro m hm
  have hb := build_fields root ctr depth m hm
  have hdyn : dynamicNodeWidth m.topic =
      max 80 (min 220 ((m.topic.length : ℚ) * 8 + 20)) := by
    simp [dynamicNodeWidth, calculatedWidth, MIN_NODE_WIDTH, MAX_NODE_WIDTH,
      CHAR_WIDTH_MULTIPLIER, HORIZONTAL_PADDING]
  refine ⟨hb.1.trans hdyn, ?_, ?_⟩
  · rw [hb.2.1]
    norm_num [nodeHeight]
  · intro hgt
    rw [hb.1, hdyn, min_eq_left (le_of_lt hgt)]
    norm_num

theorem C5_box_dimensions_witness :
    (buildLayoutTree exTreeA 0 0).1 ∈ allNodes (buildLayoutTree exTreeA 0 0).1 ∧
      ((buildLayoutTree exTreeA 0 0).1.width =
          max 80 (min 220 (((buildLayoutTree exTreeA 0 0).1.topic.length : ℚ) * 8 + 20)) ∧
        (buildLayoutTree exTreeA 0 0).1.height = 50 ∧
        (220 < ((buildLayoutTree exTreeA 0 0).1.topic.length : ℚ) * 8 + 20 →
          (buildLayoutTree exTreeA 0 0).1.width = 220)) :=
  ⟨self_mem_allNodes _,
    C5_box_dimensions exTreeA 0 0 (buildLayoutTree exTreeA 0 0).1
      (self_mem_allNodes _)⟩

/-- C2: after the bottom-up pass, a leaf's width (subtree width) is its
box width and an untouched leaf keeps relativeX = 0; an internal node's
width is max(boxWidth, totalChildrenSpan); children are centered as a
block under the parent (ChildPlacement: first child's center at
-span/2 + firstWidth/2, each next advancing by prevWidth/2 + gap +
curWidth/2); consequently every node's subtree width is at least its
box width.  The box width of a node is dynamicNodeWidth of its topic. -/
theorem C2_bottom_up_centering (root : MindMapNode) (ctr depth : Nat) :
    (∀ m ∈ allNodes (firstWalk (buildLayoutTree root ctr depth).1),
      (m.children = [] → m.width = dynamicNodeWidth m.topic) ∧
        (m.children ≠ [] →
          m.width = max (dynamicNodeWidth m.topic)
            (totalChildrenWidthOf m.children)) ∧
        ChildPlacement m ∧
        dynamicNodeWidth m.topic ≤ m.width) ∧
    (∀ t : LayoutNode, t.children = [] → firstWalk t = t) ∧
    (firstWalk (buildLayoutTree root ctr depth).1).x = 0 := by
  have hg := firstWalk_good (buildLayoutTree root ctr depth).1
    (fun m hm => (build_fields root ctr depth m hm).1)
  refine ⟨?_, firstWalk_leaf, ?_⟩
  · intro m hm
    exact ⟨(hg m hm).1.1, (hg m hm).1.2, (hg m hm).2,
      widthSpec_ge m (hg m hm).1⟩
  · rw [firstWalk_x]
    exact (build_fields root ctr depth _ (self_mem_allNodes _)).2.2.1

theorem C2_bottom_up_centering_witness :
    (firstWalk (buildLayoutTree exTreeA 0 0).1 ∈
        allNodes (firstWalk (buildLayoutTree exTreeA 0 0).1) ∧
      ChildPlacement (firstWalk (buildLayoutTree exTreeA 0 0).1)) ∧
    ((LayoutNode.mk 7 "L" 1 2 3 4 5 []).children = [] ∧
      firstWalk (LayoutNode.mk 7 "L" 1 2 3 4 5 []) =
        LayoutNode.mk 7 "L" 1 2 3 4 5 []) :=
  ⟨⟨self_mem_allNodes _,
      ((C2_bottom_up_centering exTreeA 0 0).1 _ (self_mem_allNodes _)).2.2.1⟩,
    ⟨by simp, (C2_bottom_up_centering exTreeA 0 0).2.1 _ (by simp)⟩⟩

/-- C3 counterexample: at the root of the laid-out tree exTreeA
(resolvedX = 0, own box width 80, subtree width 200 after the
bottom-up pass), the bounds update the code performs (line 91, with
node.width, which now holds the subtree width) yields running
minX = -100, while the formula of the claim (with the node's own
clamped box width) would yield -40. -/
theorem C3_counterexample :
    (resolvedTree exTreeA).finalX = 0 ∧
    (resolvedTree exTreeA).y = 0 ∧
    (resolvedTree exTreeA).width = 200 ∧
    dynamicNodeWidth (resolvedTree exTreeA).topic = 80 ∧
    (stepBounds (resolvedTree exTreeA).finalX (resolvedTree exTreeA).width
        (resolvedTree exTreeA).y ⟨0, 0, 0⟩).minX = -100 ∧
    (stepBounds (resolvedTree exTreeA).finalX
        (dynamicNodeWidth (resolvedTree exTreeA).topic)
        (resolvedTree exTreeA).y ⟨0, 0, 0⟩).minX = -40 := by
  have h0 : (buildLayoutTree exTreeA 0 0).1 =
      LayoutNode.mk 0 "A" 0 0 0 80 50
        [LayoutNode.mk 1 "B" 0 100 0 80 50 [],
          LayoutNode.mk 2 "C" 0 100 0 80 50 []] := by
    norm_num [exTreeA, buildLayoutTree, buildLayoutList, childrenOrEmpty,
      dynamicNodeWidth, calculatedWidth, MIN_NODE_WIDTH, MAX_NODE_WIDTH,
      CHAR_WIDTH_MULTIPLIER, HORIZONTAL_PADDING, nodeHeight, verticalGap,
      show "A".length = 1 from rfl, show "B".length = 1 from rfl,
      show "C".length = 1 from rfl]
  have h1 : firstWalk (buildLayoutTree exTreeA 0 0).1 =
      LayoutNode.mk 0 "A" 0 0 0 200 50
        [LayoutNode.mk 1 "B" (-60) 100 0 80 50 [],
          LayoutNode.mk 2 "C" 60 100 0 80 50 []] := by
    rw [h0]
    norm_num [firstWalk, firstWalkList, placeChildren, totalChildrenWidthOf,
      sumChildWidths, horizontalGap]
  have h2 : resolvedTree exTreeA =
      LayoutNode.mk 0 "A" 0 0 0 200 50
        [LayoutNode.mk 1 "B" (-60) 100 (-60) 80 50 [],
          LayoutNode.mk 2 "C" 60 100 60 80 50 []] := by
    rw [resolvedTree, h1]
    norm_num [secondWalk, secondWalkList, stepBounds]
  rw [h2]
  norm_num [stepBounds, dynamicNodeWidth, calculatedWidth, MIN_NODE_WIDTH,
    MAX_NODE_WIDTH, CHAR_WIDTH_MULTIPLIER, HORIZONTAL_PADDING,
    show "A".length = 1 from rfl]

/-- C3 (amended): the top-down pass accumulates, at every node in
pre-order, minX = min(minX, finalX - width/2), maxX = max(maxX,
finalX + width/2), maxY = max(maxY, y), where width is the node's
width field - which after the bottom-up pass holds the subtree width,
not the node's own box width - and returns the accumulated bounds. -/
theorem C3_bounds_accumulation (root : MindMapNode) :
    layoutBounds root = (allNodes (resolvedTree root)).foldl stepNode ⟨0, 0, 0⟩ ∧
    (∀ (fx w y : ℚ) (b : Bounds),
      stepBounds fx w y b =
        ⟨min b.minX (fx - w / 2), max b.maxX (fx + w / 2), max b.maxY y⟩) ∧
    (∀ (b : Bounds) (m : LayoutNode),
      stepNode b m = stepBounds m.finalX m.width m.y b) :=
  ⟨layoutBounds_fold root, fun _ _ _ _ => rfl, fun _ _ => rfl⟩

theorem self_mem_allNodesDepth (t : LayoutNode) (d : Nat) :
    (t, d) ∈ allNodesDepth t d := by
  cases t
  simp [allNodesDepth]

/-- C6: before normalization, every node's resolvedY is
depth * (boxHeight + verticalGap); the root has relativeX = resolvedX
= 0; every child's resolvedX is its parent's resolvedX plus its
relativeX; and resolvedY is strictly increasing in depth and equal at
equal depths. -/
theorem C6_depth_coordinates (root : MindMapNode) :
    (∀ p ∈ allNodesDepth (resolvedTree root) 0,
      p.1.y = (p.2 : ℚ) * (nodeHeight + verticalGap)) ∧
    (resolvedTree root).x = 0 ∧
    (resolvedTree root).finalX = 0 ∧
    (∀ m ∈ allNodes (resolvedTree root), ∀ c ∈ m.children,
      c.finalX = m.finalX + c.x) ∧
    (∀ p1 ∈ allNodesDepth (resolvedTree root) 0,
      ∀ p2 ∈ allNodesDepth (resolvedTree root) 0,
        (p1.2 < p2.2 → p1.1.y < p2.1.y) ∧
          (p1.2 = p2.2 → p1.1.y = p2.1.y)) := by
  have hx : (resolvedTree root).x = 0 := by
    have h1 := (secondWalk_meta (firstWalk (buildLayoutTree root 0 0).1) 0
      ⟨0, 0, 0⟩).1.1
    have h2 := firstWalk_x (buildLayoutTree root 0 0).1
    have h3 := (build_fields root 0 0 _ (self_mem_allNodes _)).2.2.1
    exact (h1.trans h2).trans h3
  refine ⟨resolvedTree_ydepth root, hx, ?_, ?_, ?_⟩
  · have h1 := secondWalk_finalX (firstWalk (buildLayoutTree root 0 0).1) 0
      ⟨0, 0, 0⟩
    have h2 := firstWalk_x (buildLayoutTree root 0 0).1
    have h3 := (build_fields root 0 0 _ (self_mem_allNodes _)).2.2.1
    rw [resolvedTree, h1, h2, h3]
    ring
  · intro m hm c hc
    exact resolved_link root m hm c hc
  · intro p1 hp1 p2 hp2
    have h1 := resolvedTree_ydepth root p1 hp1
    have h2 := resolvedTree_ydepth root p2 hp2
    have hpos : (0 : ℚ) < nodeHeight + verticalGap := by
      norm_num [nodeHeight, verticalGap]
    constructor
    · intro hlt
      rw [h1, h2]
      have : (p1.2 : ℚ) < (p2.2 : ℚ) := by exact_mod_cast hlt
      exact mul_lt_mul_of_pos_right this hpos
    · intro heq
      rw [h1, h2, heq]

theorem C6_depth_coordinates_witness :
    ((resolvedTree exTreeA, 0) ∈ allNodesDepth (resolvedTree exTreeA) 0 ∧
      (resolvedTree exTreeA, 0).1.y =
        ((0 : Nat) : ℚ) * (nodeHeight + verticalGap)) ∧
    (resolvedTree exTreeA).x = 0 ∧ (resolvedTree exTreeA).finalX = 0 :=
  ⟨⟨self_mem_allNodesDepth _ 0,
      (C6_depth_coordinates exTreeA).1 _ (self_mem_allNodesDepth _ 0)⟩,
    (C6_depth_coordinates exTreeA).2.1, (C6_depth_coordinates exTreeA).2.2.1⟩

theorem final_link (root : MindMapNode) :
    ∀ m ∈ allNodes (finalTree root), ParentLink m :=
  normalizeTree_link (resolvedTree root) (layoutBounds root).minX
    (resolved_link root)

theorem final_sepPair (root : MindMapNode) :
    ∀ m ∈ allNodes (finalTree root), List.Pairwise sepPair (csxw m) := by
  intro m hm
  obtain ⟨m2, hm2, hfacts⟩ := final_from_resolved root m hm
  rw [hfacts.2.2.2.2.2.2.2]
  exact (resolved_facts root m2 hm2).2.2.2

/-- C1: in the layout produced by simpleTreeLayout (whose nodes array
is the breadth-first flattening of finalTree), for every node, any two
of its children (in sibling order) have their subtree intervals
[finalX - width/2, finalX + width/2] separated by at least
horizontalGap, and in particular the intervals never intersect. -/
theorem C1_no_sibling_overlap (root : MindMapNode) :
    (simpleTreeLayout root).nodes = bfsFlat [finalTree root] ∧
    ∀ m ∈ allNodes (finalTree root),
      List.Pairwise (fun a b =>
        a.finalX + a.width / 2 + horizontalGap ≤ b.finalX - b.width / 2 ∧
          ∀ q : ℚ, ¬(a.finalX - a.width / 2 ≤ q ∧ q ≤ a.finalX + a.width / 2 ∧
            b.finalX - b.width / 2 ≤ q ∧ q ≤ b.finalX + b.width / 2))
        m.children := by
  refine ⟨simpleTreeLayout_nodes_eq root, ?_⟩
  intro m hm
  have hlink := final_link root m hm
  have hsep := final_sepPair root m hm
  rw [csxw, List.pairwise_map] at hsep
  refine List.Pairwise.imp_of_mem ?_ hsep
  intro a b ha hb hab
  have hfa : a.finalX = m.finalX + a.x := hlink a ha
  have hfb : b.finalX = m.finalX + b.x := hlink b hb
  simp only [sepPair] at hab
  have hord : a.finalX + a.width / 2 + horizontalGap ≤ b.finalX - b.width / 2 := by
    rw [hfa, hfb]
    linarith
  refine ⟨hord, ?_⟩
  intro q hq
  obtain ⟨hq1, hq2, hq3, hq4⟩ := hq
  have hG : (0 : ℚ) < horizontalGap := by norm_num [horizontalGap]
  linarith

theorem C1_no_sibling_overlap_witness :
    finalTree exTreeA ∈ allNodes (finalTree exTreeA) ∧
      List.Pairwise (fun a b =>
        a.finalX + a.width / 2 + horizontalGap ≤ b.finalX - b.width / 2 ∧
          ∀ q : ℚ, ¬(a.finalX - a.width / 2 ≤ q ∧ q ≤ a.finalX + a.width / 2 ∧
            b.finalX - b.width / 2 ≤ q ∧ q ≤ b.finalX + b.width / 2))
        (finalTree exTreeA).children :=
  ⟨self_mem_allNodes _,
    (C1_no_sibling_overlap exTreeA).2 _ (self_mem_allNodes _)⟩

/-- C4: the result width is (maxX - minX) + 2*padding and the height
maxY + nodeHeight + 2*padding; every emitted node is a node of the
resolved tree shifted once by (-minX + padding, +padding); afterwards
all coordinates are non-negative and every node's box lies within the
reported total width and height. -/
theorem C4_normalization (root : MindMapNode) :
    ((simpleTreeLayout root).width =
        (layoutBounds root).maxX - (layoutBounds root).minX + 2 * padding) ∧
    ((simpleTreeLayout root).height =
        (layoutBounds root).maxY + nodeHeight + 2 * padding) ∧
    (∀ p ∈ (simpleTreeLayout root).nodes,
      ∃ m ∈ allNodes (resolvedTree root),
        p.finalX = m.finalX - (layoutBounds root).minX + padding ∧
          p.y = m.y + padding ∧ p.width = m.width ∧ p.height = m.height) ∧
    (∀ p ∈ (simpleTreeLayout root).nodes,
      0 ≤ p.finalX ∧ 0 ≤ p.y ∧ 0 ≤ p.finalX - p.width / 2 ∧
        p.finalX + p.width / 2 ≤ (simpleTreeLayout root).width ∧
        p.y + p.height ≤ (simpleTreeLayout root).height) := by
  have hW : (simpleTreeLayout root).width =
      (layoutBounds root).maxX - (layoutBounds root).minX + 2 * padding := by
    simp only [simpleTreeLayout, layoutBounds]
    ring
  have hH : (simpleTreeLayout root).height =
      (layoutBounds root).maxY + nodeHeight + 2 * padding := by
    simp only [simpleTreeLayout, layoutBounds]
    ring
  have hkey : ∀ p ∈ (simpleTreeLayout root).nodes,
      ∃ m ∈ allNodes (resolvedTree root),
        p.finalX = m.finalX - (layoutBounds root).minX + padding ∧
          p.y = m.y + padding ∧ p.width = m.width ∧ p.height = m.height := by
    intro p hp
    obtain ⟨mN, hmN, rfl⟩ := final_mem root p hp
    obtain ⟨m2, hm2, hf⟩ := final_from_resolved root mN hmN
    exact ⟨m2, hm2, hf.2.2.2.2.1, hf.2.2.2.1, hf.2.2.2.2.2.1,
      hf.2.2.2.2.2.2.1⟩
  refine ⟨hW, hH, hkey, ?_⟩
  intro p hp
  obtain ⟨m2, hm2, hfx, hy, hw, hh⟩ := hkey p hp
  have hcov := layoutBounds_covers root m2 hm2
  have hres := resolved_facts root m2 hm2
  have hminw : MIN_NODE_WIDTH ≤ m2.width := hres.1
  have h80 : MIN_NODE_WIDTH = (80 : ℚ) := rfl
  have hhn : m2.height = nodeHeight := hres.2.1
  have hn50 : nodeHeight = (50 : ℚ) := rfl
  have hy0 : 0 ≤ m2.y := hres.2.2.1
  have hpad : padding = (40 : ℚ) := rfl
  refine ⟨?_, ?_, ?_, ?_, ?_⟩
  · rw [hfx]
    have := hcov.1
    linarith
  · rw [hy]
    linarith
  · rw [hfx, hw]
    have := hcov.1
    linarith
  · rw [hfx, hw, hW]
    have := hcov.2.1
    linarith
  · rw [hy, hh, hhn, hH]
    have := hcov.2.2
    linarith

theorem C4_normalization_witness :
    (⟨0, "A", 140, 40, 200, 50, [1, 2]⟩ : PlacedNode) ∈
        (simpleTreeLayout exTreeA).nodes ∧
      (0 ≤ (⟨0, "A", 140, 40, 200, 50, [1, 2]⟩ : PlacedNode).finalX ∧
        0 ≤ (⟨0, "A", 140, 40, 200, 50, [1, 2]⟩ : PlacedNode).y ∧
        0 ≤ (⟨0, "A", 140, 40, 200, 50, [1, 2]⟩ : PlacedNode).finalX -
          (⟨0, "A", 140, 40, 200, 50, [1, 2]⟩ : PlacedNode).width / 2 ∧
        (⟨0, "A", 140, 40, 200, 50, [1, 2]⟩ : PlacedNode).finalX +
            (⟨0, "A", 140, 40, 200, 50, [1, 2]⟩ : PlacedNode).width / 2 ≤
          (simpleTreeLayout exTreeA).width ∧
        (⟨0, "A", 140, 40, 200, 50, [1, 2]⟩ : PlacedNode).y +
            (⟨0, "A", 140, 40, 200, 50, [1, 2]⟩ : PlacedNode).height ≤
          (simpleTreeLayout exTreeA).height) := by
  have hmem : (⟨0, "A", 140, 40, 200, 50, [1, 2]⟩ : PlacedNode) ∈
      (simpleTreeLayout exTreeA).nodes := by
    have h0 : (buildLayoutTree exTreeA 0 0).1 =
        LayoutNode.mk 0 "A" 0 0 0 80 50
          [LayoutNode.mk 1 "B" 0 100 0 80 50 [],
            LayoutNode.mk 2 "C" 0 100 0 80 50 []] := by
      norm_num [exTreeA, buildLayoutTree, buildLayoutList, childrenOrEmpty,
        dynamicNodeWidth, calculatedWidth, MIN_NODE_WIDTH, MAX_NODE_WIDTH,
        CHAR_WIDTH_MULTIPLIER, HORIZONTAL_PADDING, nodeHeight, verticalGap,
        show "A".length = 1 from rfl, show "B".length = 1 from rfl,
        show "C".length = 1 from rfl]
    have h1 : firstWalk (buildLayoutTree exTreeA 0 0).1 =
        LayoutNode.mk 0 "A" 0 0 0 200 50
          [LayoutNode.mk 1 "B" (-60) 100 0 80 50 [],
            LayoutNode.mk 2 "C" 60 100 0 80 50 []] := by
      rw [h0]
      norm_num [firstWalk, firstWalkList, placeChildren, totalChildrenWidthOf,
        sumChildWidths, horizontalGap]
    simp only [simpleTreeLayout, h1]
    norm_num [secondWalk, secondWalkList, stepBounds, bfsNodes, padding,
      LayoutNode.id]
  exact ⟨hmem, C4_normalization exTreeA |>.2.2.2 _ hmem⟩

theorem final_ids (root : MindMapNode) :
    (allNodes (finalTree root)).map LayoutNode.id =
      List.range' 0 (mmCount root) := by
  have h1 := normalizeTree_ids (resolvedTree root) (layoutBounds root).minX
  have h2 := secondWalk_ids (firstWalk (buildLayoutTree root 0 0).1) 0 ⟨0, 0, 0⟩
  have h3 := firstWalk_ids (buildLayoutTree root 0 0).1
  have h4 := (build_ids root 0 0).1
  exact ((h1.trans h2).trans h3).trans h4

theorem nodes_ids_eq (root : MindMapNode) :
    ((simpleTreeLayout root).nodes.map PlacedNode.id).Perm
      (List.range' 0 (mmCount root)) := by
  rw [simpleTreeLayout_nodes_eq root]
  have hperm := (bfsFlat_perm [finalTree root]).map PlacedNode.id
  rw [List.map_map] at hperm
  have heq : (allNodesList [finalTree root]).map (PlacedNode.id ∘ place) =
      (allNodesList [finalTree root]).map LayoutNode.id :=
    List.map_congr_left (fun m _ => rfl)
  rw [heq, allNodesList_singleton, final_ids] at hperm
  exact hperm

/-- C7: the nodes sequence lists every constructed LayoutNode exactly
once (its ids are a permutation of 0..n-1, hence without duplicates),
the parent of every listed child id appears strictly earlier in the
sequence, and a tree with only a root yields one node and totalWidth =
boxWidth + 2*padding. -/
theorem C7_bfs_output (root : MindMapNode) :
    ((simpleTreeLayout root).nodes.map PlacedNode.id).Perm
        (List.range' 0 (mmCount root)) ∧
    ((simpleTreeLayout root).nodes.map PlacedNode.id).Nodup ∧
    (∀ p ∈ (simpleTreeLayout root).nodes, ∀ cid ∈ p.childIds,
      ((simpleTreeLayout root).nodes.map PlacedNode.id).indexOf p.id <
        ((simpleTreeLayout root).nodes.map PlacedNode.id).indexOf cid) ∧
    (∀ (topic : String) (copt : Option (List MindMapNode)),
      childrenOrEmpty copt = [] →
      (simpleTreeLayout (.mk topic copt)).nodes.length = 1 ∧
        (simpleTreeLayout (.mk topic copt)).width =
          dynamicNodeWidth topic + 2 * padding) := by
  have hperm := nodes_ids_eq root
  refine ⟨hperm, hperm.nodup_iff.2 (List.nodup_range' 0 (mmCount root)), ?_, ?_⟩
  · intro p hp cid hcid
    have hnd : ((allNodesList [finalTree root]).map LayoutNode.id).Nodup := by
      rw [allNodesList_singleton, final_ids]
      exact List.nodup_range' 0 (mmCount root)
    obtain ⟨m, hm, rfl⟩ := final_mem root p hp
    have hcid2 : cid ∈ m.children.map LayoutNode.id := hcid
    obtain ⟨c, hc, rfl⟩ := List.mem_map.1 hcid2
    have hm2 : m ∈ allNodesList [finalTree root] := by
      rw [allNodesList_singleton]
      exact hm
    have hmain := bfsFlat_parent_first [finalTree root] hnd m hm2 c hc
    rw [simpleTreeLayout_nodes_eq root]
    exact hmain
  · intro topic copt hemp
    have hw80 := dynamicNodeWidth_ge_min topic
    have h80 : MIN_NODE_WIDTH = (80 : ℚ) := rfl
    have hb : buildLayoutTree (.mk topic copt) 0 0 =
        (LayoutNode.mk 0 topic 0 0 0 (dynamicNodeWidth topic) nodeHeight [], 1) := by
      simp [buildLayoutTree, hemp, buildLayoutList]
    have hfw : firstWalk (buildLayoutTree (.mk topic copt) 0 0).1 =
        LayoutNode.mk 0 topic 0 0 0 (dynamicNodeWidth topic) nodeHeight [] := by
      rw [hb]
      simp [firstWalk]
    constructor
    · simp only [simpleTreeLayout, hfw]
      norm_num [secondWalk, secondWalkList, bfsNodes]
    · simp only [simpleTreeLayout, hfw]
      norm_num [secondWalk, secondWalkList, stepBounds]
      rw [min_eq_right (by linarith), max_eq_right (by linarith)]
      ring

/-- Full evaluation of the layout of exTreeA. -/
theorem exTreeA_nodes_eval :
    (simpleTreeLayout exTreeA).nodes =
      [⟨0, "A", 140, 40, 200, 50, [1, 2]⟩, ⟨1, "B", 80, 140, 80, 50, []⟩,
        ⟨2, "C", 200, 140, 80, 50, []⟩] := by
  have h0 : (buildLayoutTree exTreeA 0 0).1 =
      LayoutNode.mk 0 "A" 0 0 0 80 50
        [LayoutNode.mk 1 "B" 0 100 0 80 50 [],
          LayoutNode.mk 2 "C" 0 100 0 80 50 []] := by
    norm_num [exTreeA, buildLayoutTree, buildLayoutList, childrenOrEmpty,
      dynamicNodeWidth, calculatedWidth, MIN_NODE_WIDTH, MAX_NODE_WIDTH,
      CHAR_WIDTH_MULTIPLIER, HORIZONTAL_PADDING, nodeHeight, verticalGap,
      show "A".length = 1 from rfl, show "B".length = 1 from rfl,
      show "C".length = 1 from rfl]
  have h1 : firstWalk (buildLayoutTree exTreeA 0 0).1 =
      LayoutNode.mk 0 "A" 0 0 0 200 50
        [LayoutNode.mk 1 "B" (-60) 100 0 80 50 [],
          LayoutNode.mk 2 "C" 60 100 0 80 50 []] := by
    rw [h0]
    norm_num [firstWalk, firstWalkList, placeChildren, totalChildrenWidthOf,
      sumChildWidths, horizontalGap]
  simp only [simpleTreeLayout, h1]
  norm_num [secondWalk, secondWalkList, stepBounds, bfsNodes, padding,
    LayoutNode.id]

theorem C7_bfs_output_witness :
    ((⟨0, "A", 140, 40, 200, 50, [1, 2]⟩ : PlacedNode) ∈
        (simpleTreeLayout exTreeA).nodes ∧
      (1 : Nat) ∈ (⟨0, "A", 140, 40, 200, 50, [1, 2]⟩ : PlacedNode).childIds ∧
      ((simpleTreeLayout exTreeA).nodes.map PlacedNode.id).indexOf
          (⟨0, "A", 140, 40, 200, 50, [1, 2]⟩ : PlacedNode).id <
        ((simpleTreeLayout exTreeA).nodes.map PlacedNode.id).indexOf 1) ∧
    (childrenOrEmpty (some ([] : List MindMapNode)) = [] ∧
      (simpleTreeLayout (.mk "A" (some []))).nodes.length = 1 ∧
      (simpleTreeLayout (.mk "A" (some []))).width =
        dynamicNodeWidth "A" + 2 * padding) := by
  have hmem : (⟨0, "A", 140, 40, 200, 50, [1, 2]⟩ : PlacedNode) ∈
      (simpleTreeLayout exTreeA).nodes := by
    rw [exTreeA_nodes_eval]
    simp
  have hcid : (1 : Nat) ∈
      (⟨0, "A", 140, 40, 200, 50, [1, 2]⟩ : PlacedNode).childIds := by
    simp [PlacedNode.childIds]
  refine ⟨⟨hmem, hcid, (C7_bfs_output exTreeA).2.2.1 _ hmem 1 hcid⟩,
    rfl, (C7_bfs_output exTreeA).2.2.2 "A" (some []) rfl⟩

theorem buildRef_selfLoop_none :
    ∀ fuel ctr depth, buildLayoutTreeRef selfLoopGraph fuel 0 ctr depth = none := by
  intro fuel
  induction fuel with
  | zero => intro ctr depth; simp [buildLayoutTreeRef]
  | succ n ih =>
    intro ctr depth
    have hl : buildLayoutListRef selfLoopGraph n [0] (ctr + 1) (depth + 1) =
        none := by
      simp [buildLayoutListRef, ih (ctr + 1) (depth + 1)]
    simp only [selfLoopGraph] at hl
    simp [buildLayoutTreeRef, selfLoopGraph, hl]

/-- C8 counterexample: the smallest cyclic input, an object whose
children array contains the object itself.  The construction recursion
never returns for any call-stack budget: the code has no cycle check
and no typed error path, so on a cyclic input it does not fail with an
InvalidTreeError - it does not terminate at all (a stack overflow at
runtime). -/
theorem C8_invalid_tree_counterexample :
    buildDivergesOn selfLoopGraph ∧
      selfLoopGraph.objects.get? 0 = some ("A", [0]) :=
  ⟨buildRef_selfLoop_none, rfl⟩

/-- C8 (amended): buildLayoutTree performs no validation: it recurses
into children unconditionally, so on a self-referential input the
construction diverges instead of returning a typed InvalidTreeError
(no such error exists in the code), while on an acyclic graph it
agrees with the tree construction. -/
theorem C8_no_cycle_detection :
    buildDivergesOn selfLoopGraph ∧
      buildLayoutTreeRef exGraphA 2 0 0 0 =
        some (buildLayoutTree exTreeA 0 0) := by
  refine ⟨buildRef_selfLoop_none, ?_⟩
  have hR : buildLayoutTree exTreeA 0 0 =
      (LayoutNode.mk 0 "A" 0 0 0 80 50
        [LayoutNode.mk 1 "B" 0 100 0 80 50 [],
          LayoutNode.mk 2 "C" 0 100 0 80 50 []], 3) := by
    norm_num [exTreeA, buildLayoutTree, buildLayoutList, childrenOrEmpty,
      dynamicNodeWidth, calculatedWidth, MIN_NODE_WIDTH, MAX_NODE_WIDTH,
      CHAR_WIDTH_MULTIPLIER, HORIZONTAL_PADDING, nodeHeight, verticalGap,
      show "A".length = 1 from rfl, show "B".length = 1 from rfl,
      show "C".length = 1 from rfl]
  rw [hR]
  norm_num [buildLayoutTreeRef, buildLayoutListRef, exGraphA,
    dynamicNodeWidth, calculatedWidth, MIN_NODE_WIDTH, MAX_NODE_WIDTH,
    CHAR_WIDTH_MULTIPLIER, HORIZONTAL_PADDING, nodeHeight, verticalGap,
    show "A".length = 1 from rfl, show "B".length = 1 from rfl,
    show "C".length = 1 from rfl]

/-- C9 counterexample: a non-string (undefined) label is not treated
as a zero-length label: evaluating node.topic.length throws a
TypeError, so the node does not receive the minimum box width and the
layout call is not error-free. -/
theorem C9_nonstring_label_counterexample :
    dynamicNodeWidthJS JSValue.undef =
      Except.error "TypeError: cannot read length of undefined" ∧
      dynamicNodeWidthJS JSValue.undef ≠ Except.ok MIN_NODE_WIDTH := by
  refine ⟨rfl, ?_⟩
  simp [dynamicNodeWidthJS, topicLengthJS]

/-- C9 (amended): a node whose label is the empty string raises no
error and receives exactly the minimum box width MIN_NODE_WIDTH = 80
(the computed width 20 is clamped up); the code does not handle
non-string labels. -/
theorem C9_empty_label_min_width (root : MindMapNode) (ctr depth : Nat) :
    (∀ m ∈ allNodes (buildLayoutTree root ctr depth).1,
      m.topic = "" → m.width = MIN_NODE_WIDTH) ∧
    dynamicNodeWidth "" = MIN_NODE_WIDTH ∧
    dynamicNodeWidthJS (JSValue.str "") = Except.ok MIN_NODE_WIDTH := by
  have hdyn : dynamicNodeWidth "" = MIN_NODE_WIDTH := by
    norm_num [dynamicNodeWidth, calculatedWidth, MIN_NODE_WIDTH,
      MAX_NODE_WIDTH, CHAR_WIDTH_MULTIPLIER, HORIZONTAL_PADDING,
      show "".length = 0 from rfl]
  refine ⟨?_, hdyn, ?_⟩
  · intro m hm he
    rw [(build_fields root ctr depth m hm).1, he, hdyn]
  · norm_num [dynamicNodeWidthJS, topicLengthJS, MIN_NODE_WIDTH,
      MAX_NODE_WIDTH, CHAR_WIDTH_MULTIPLIER, HORIZONTAL_PADDING,
      show "".length = 0 from rfl]

theorem C9_empty_label_min_width_witness :
    (buildLayoutTree (.mk "" none) 0 0).1 ∈
        allNodes (buildLayoutTree (.mk "" none) 0 0).1 ∧
      (buildLayoutTree (.mk "" none) 0 0).1.topic = "" ∧
      (buildLayoutTree (.mk "" none) 0 0).1.width = MIN_NODE_WIDTH :=
  ⟨self_mem_allNodes _, by simp [buildLayoutTree],
    (C9_empty_label_min_width (.mk "" none) 0 0).1 _ (self_mem_allNodes _)
      (by simp [buildLayoutTree])⟩

theorem sameSource_build :
    ∀ a b : MindMapNode, SameSource a b →
      ∀ ctr depth : Nat, buildLayoutTree a ctr depth = buildLayoutTree b ctr depth := by
  refine mmInd
    (fun a => ∀ b, SameSource a b →
      ∀ ctr depth, buildLayoutTree a ctr depth = buildLayoutTree b ctr depth)
    (fun l => ∀ l2, SameSourceList l l2 →
      ∀ ctr depth, buildLayoutList l ctr depth = buildLayoutList l2 ctr depth)
    ?_ ?_ ?_
  · intro t c hQ b hss ctr depth
    cases b with
    | mk t2 c2 =>
      simp only [SameSource] at hss
      obtain ⟨rfl, hl⟩ := hss
      have heq := hQ (childrenOrEmpty c2) hl (ctr + 1) (depth + 1)
      simp only [buildLayoutTree]
      rw [heq]
  · intro l2 hss ctr depth
    cases l2 with
    | nil => rfl
    | cons b bs => simp [SameSourceList] at hss
  · intro n ns hP hQ l2 hss ctr depth
    cases l2 with
    | nil => simp [SameSourceList] at hss
    | cons b bs =>
      simp only [SameSourceList] at hss
      simp only [buildLayoutList]
      rw [hP b hss.1 ctr depth, hQ bs hss.2 (buildLayoutTree b ctr depth).2 depth]

theorem sameSource_refl : ∀ a : MindMapNode, SameSource a a := by
  refine mmInd (fun a => SameSource a a) (fun l => SameSourceList l l)
    ?_ ?_ ?_
  · intro t c hQ
    simp only [SameSource]
    exact ⟨by trivial, hQ⟩
  · simp [SameSourceList]
  · intro n ns hP hQ
    simp only [SameSourceList]
    exact ⟨hP, hQ⟩

/-- C10: a node with an absent children field is laid out exactly like
one with an explicit empty children array (SameSource identifies the
two representations, anywhere in the tree), and such a node becomes a
leaf LayoutNode. -/
theorem C10_absent_children_is_leaf :
    (∀ a b : MindMapNode, SameSource a b →
      simpleTreeLayout a = simpleTreeLayout b) ∧
    (∀ a : MindMapNode, SameSource a a) ∧
    (∀ topic : String, SameSource (.mk topic none) (.mk topic (some []))) ∧
    (∀ (topic : String) (ctr depth : Nat),
      (buildLayoutTree (.mk topic none) ctr depth).1.children = []) := by
  refine ⟨?_, sameSource_refl, ?_, ?_⟩
  · intro a b h
    simp only [simpleTreeLayout]
    rw [sameSource_build a b h 0 0]
  · intro topic
    simp [SameSource, SameSourceList, childrenOrEmpty]
  · intro topic ctr depth
    simp [buildLayoutTree, childrenOrEmpty, buildLayoutList]

theorem C10_absent_children_is_leaf_witness :
    SameSource (.mk "A" (some [.mk "B" none]))
        (.mk "A" (some [.mk "B" (some [])])) ∧
      simpleTreeLayout (.mk "A" (some [.mk "B" none])) =
        simpleTreeLayout (.mk "A" (some [.mk "B" (some [])])) := by
  have hss : SameSource (MindMapNode.mk "A" (some [.mk "B" none]))
      (.mk "A" (some [.mk "B" (some [])])) := by
    simp [SameSource, SameSourceList, childrenOrEmpty]
  exact ⟨hss, (C10_absent_children_is_leaf).1 _ _ hss⟩
